import Mathlib

/-!
Verification of the core of the `tracing` path tracer.

The development shallowly embeds the Rust sources:
* machine floats (`f32`) are modelled by exact arithmetic — `ℚ` for the
  purely algebraic/combinatorial parts (BVH, discrete distributions) and
  `ℝ` where the code uses `sqrt`, trigonometry or `π` (frames, sampling
  warps, Fresnel terms, materials, the integrator);
* Rust trait objects (`Material`, `Light`) become structures of functions;
* in-place slice mutation (BVH build reordering its items) becomes a
  function returning the reordered list alongside the built tree.
-/

set_option maxHeartbeats 1600000

namespace Tracing

/-- Axis enumeration from `math/mod.rs`: `pub enum Axis { X, Y, Z }`. -/
inductive Axis where
  | X
  | Y
  | Z
deriving DecidableEq, Repr

/-- Component-wise 3-vector from `math/vec3.rs`, generic over the scalar
model (`ℚ` or `ℝ` stand in for `f32`). -/
structure Vec3 (α : Type) where
  x : α
  y : α
  z : α
deriving DecidableEq, Repr

namespace Vec3

variable {α : Type} [LinearOrderedField α]

/-- Component-wise addition (`impl Add for Vec3`). -/
instance : Add (Vec3 α) := ⟨fun a b => ⟨a.x + b.x, a.y + b.y, a.z + b.z⟩⟩

/-- Component-wise subtraction (`impl Sub for Vec3`). -/
instance : Sub (Vec3 α) := ⟨fun a b => ⟨a.x - b.x, a.y - b.y, a.z - b.z⟩⟩

/-- Component-wise product (`impl Mul for Vec3`). -/
instance : Mul (Vec3 α) := ⟨fun a b => ⟨a.x * b.x, a.y * b.y, a.z * b.z⟩⟩

/-- Scalar product on the right (`impl Mul<f32> for Vec3`). -/
instance : HMul (Vec3 α) α (Vec3 α) := ⟨fun a s => ⟨a.x * s, a.y * s, a.z * s⟩⟩

/-- Scalar product on the left (`impl Mul<Vec3> for f32`). -/
instance : HMul α (Vec3 α) (Vec3 α) := ⟨fun s a => ⟨s * a.x, s * a.y, s * a.z⟩⟩

/-- Scalar division (`impl Div<f32> for Vec3`): the source multiplies by the
reciprocal, `let s = 1.0 / rhs; self * s`. -/
instance : HDiv (Vec3 α) α (Vec3 α) := ⟨fun a s => a * (1 / s)⟩

/-- Component-wise division (`impl Div for Vec3`). -/
instance : Div (Vec3 α) := ⟨fun a b => ⟨a.x / b.x, a.y / b.y, a.z / b.z⟩⟩

/-- Scalar divided by vector, component-wise (`impl Div<Vec3> for f32`). -/
instance : HDiv α (Vec3 α) (Vec3 α) := ⟨fun s a => ⟨s / a.x, s / a.y, s / a.z⟩⟩

/-- Negation (`impl Neg for Vec3`). -/
instance : Neg (Vec3 α) := ⟨fun a => ⟨-a.x, -a.y, -a.z⟩⟩

/-- Vec3::zero. -/
def zero : Vec3 α := ⟨0, 0, 0⟩

/-- Vec3::thrice. -/
def thrice (v : α) : Vec3 α := ⟨v, v, v⟩

/-- Vec3::sum. -/
def sum (a : Vec3 α) : α := a.x + a.y + a.z

/-- Vec3::avg. -/
def avg (a : Vec3 α) : α := a.sum / 3

/-- Vec3::dot, `(lhs * rhs).sum()`. -/
def dot (a b : Vec3 α) : α := (a * b).sum

/-- Vec3::cross. -/
def cross (a b : Vec3 α) : Vec3 α :=
  ⟨a.y * b.z - a.z * b.y, a.z * b.x - a.x * b.z, a.x * b.y - a.y * b.x⟩

/-- Vec3::min, component-wise. -/
def vmin (a b : Vec3 α) : Vec3 α := ⟨min a.x b.x, min a.y b.y, min a.z b.z⟩

/-- Vec3::max, component-wise. -/
def vmax (a b : Vec3 α) : Vec3 α := ⟨max a.x b.x, max a.y b.y, max a.z b.z⟩

/-- Vec3::min_elem. -/
def min_elem (a : Vec3 α) : α := min (min a.x a.y) a.z

/-- Vec3::max_elem. -/
def max_elem (a : Vec3 α) : α := max (max a.x a.y) a.z

/-- Indexing by axis (`impl Index<Axis> for Vec3`). -/
def get (a : Vec3 α) : Axis → α
  | Axis.X => a.x
  | Axis.Y => a.y
  | Axis.Z => a.z

end Vec3

/-- Ray from `math/ray.rs`. -/
structure Ray (α : Type) where
  origin : Vec3 α
  direction : Vec3 α

/-- Ray::point_at: `origin + direction * t`. -/
def Ray.point_at {α : Type} [LinearOrderedField α] (r : Ray α) (t : α) : Vec3 α :=
  r.origin + r.direction * t

end Tracing

noncomputable section

namespace Tracing

/-- PI from `std::f32::consts`, modelled exactly. -/
def PI : ℝ := Real.pi

/-- INV_PI = FRAC_1_PI from `math/mod.rs`. -/
def INV_PI : ℝ := 1 / PI

/-- INV_2_PI = 0.5 * FRAC_1_PI. -/
def INV_2_PI : ℝ := 0.5 * INV_PI

/-- EPSILON = 1e-5 from `math/mod.rs`. -/
def EPSILON : ℝ := 1e-5

namespace fresnel

/-- fresnel::dielectric_reflectance from `material.rs`: clamps `cos_i` to
`[-1, 1]`, detects total internal reflection via `sin_t2 > 1`, and otherwise
averages the squared s/p amplitude ratios.  Returns `(reflectance, cos_t)`. -/
def dielectric_reflectance (eta cos_i : ℝ) : ℝ × ℝ :=
  let c := max (min cos_i 1) (-1)
  let sin_t2 := eta * eta * (1 - c * c)
  if sin_t2 > 1 then
    (1, 0)
  else
    let cos_t := Real.sqrt (1 - sin_t2)
    let r_s := (eta * c - cos_t) / (eta * c + cos_t)
    let r_p := (eta * cos_t - c) / (eta * cos_t + c)
    ((r_s * r_s + r_p * r_p) * 0.5, cos_t)

end fresnel

/-- warp::uniform_disk: `r = √u`, `θ = 2πv`, returns `(r cos θ, r sin θ)`. -/
def uniform_disk (uv : ℝ × ℝ) : ℝ × ℝ :=
  let r := Real.sqrt uv.1
  let theta := 2 * PI * uv.2
  (r * Real.cos theta, r * Real.sin theta)

/-- warp::cosine_hemisphere: disk warp for `(x, z)` and `y = √(1 − u)`,
reusing the same `u` component. -/
def cosine_hemisphere (uv : ℝ × ℝ) : Vec3 ℝ :=
  let xz := uniform_disk uv
  let y := Real.sqrt (1 - uv.1)
  ⟨xz.1, y, xz.2⟩

/-- warp::cosine_hemisphere_pdf: `v.y * INV_PI`. -/
def cosine_hemisphere_pdf (v : Vec3 ℝ) : ℝ := v.y * INV_PI

/-- Shading frame from `math/frame.rs`: a right-handed basis stored as
`Frame(tangent, normal, bitangent)` (tuple fields `.0`, `.1`, `.2`). -/
structure Frame where
  tangent : Vec3 ℝ
  normal : Vec3 ℝ
  bitangent : Vec3 ℝ

namespace Frame

/-- Frame::from_up: picks a stable tangent from the larger of `|x|`, `|y|`,
then completes the basis with a cross product. -/
def from_up (normal : Vec3 ℝ) : Frame :=
  let tangent :=
    if |normal.x| > |normal.y| then
      Vec3.mk normal.z 0 (-normal.x) /
        Real.sqrt (normal.x * normal.x + normal.z * normal.z)
    else
      Vec3.mk 0 (-normal.z) normal.y /
        Real.sqrt (normal.y * normal.y + normal.z * normal.z)
  ⟨tangent, normal, Vec3.cross normal tangent⟩

/-- Frame::to_world: `self.0 * v.x + self.1 * v.y + self.2 * v.z`. -/
def to_world (f : Frame) (v : Vec3 ℝ) : Vec3 ℝ :=
  f.tangent * v.x + f.normal * v.y + f.bitangent * v.z

/-- Frame::to_local: dot products against the three basis vectors. -/
def to_local (f : Frame) (v : Vec3 ℝ) : Vec3 ℝ :=
  ⟨Vec3.dot v f.tangent, Vec3.dot v f.normal, Vec3.dot v f.bitangent⟩

end Frame

/-- Vector length (`Vec3::length`): `sqrt (dot self self)`. -/
def Vec3.length (v : Vec3 ℝ) : ℝ := Real.sqrt (Vec3.dot v v)

/-- Vec3::normalized: `self / length`. -/
def Vec3.normalized (v : Vec3 ℝ) : Vec3 ℝ := v / v.length

/-- lerp from `math/mod.rs`. -/
def lerp (a b : Vec3 ℝ) (t : ℝ) : Vec3 ℝ := (1 - t) * a + t * b

/-- bilerp from `math/mod.rs`. -/
def bilerp (x00 x01 x10 x11 : Vec3 ℝ) (uv : ℝ × ℝ) : Vec3 ℝ :=
  lerp (lerp x00 x01 uv.1) (lerp x10 x11 uv.1) uv.2

/-- Truncation toward zero, the semantics of Rust float-to-int casts and of
the remainder operator on floats. -/
def rustTrunc (x : ℝ) : ℤ := if 0 ≤ x then ⌊x⌋ else -⌊-x⌋

/-- Rust `%` on floats: remainder with the sign of the dividend,
`a - m * trunc (a / m)`. -/
def frem (a m : ℝ) : ℝ := a - m * (rustTrunc (a / m) : ℝ)

/-- Bitmap image from `texture.rs` (decoded pixels; out-of-range access is
a panic in the source, modelled by a zero default). -/
structure Image where
  width : ℕ
  height : ℕ
  pixels : List (Vec3 ℝ)

/-- Image::get: `pixels[width * y + x]`. -/
def Image.get (img : Image) (x y : ℕ) : Vec3 ℝ :=
  img.pixels.getD (img.width * y + x) Vec3.zero

/-- Non-negative remainder from `texture.rs`: `modulo(a, b)`. -/
def modulo (a b : ℤ) : ℕ :=
  let r := a % b
  (if r < 0 then r + b else r).toNat

/-- Image::eval: half-pixel shift, vertical flip, wrap both axes, bilinear
interpolation of the four surrounding texels. -/
def Image.eval (img : Image) (uv : ℝ × ℝ) : Vec3 ℝ :=
  let w : ℤ := (img.width : ℤ)
  let h : ℤ := (img.height : ℤ)
  let tu := (img.width : ℝ) * uv.1 - 0.5
  let tv := (img.height : ℝ) * (1 - uv.2) - 0.5
  let x0 : ℤ := ⌊tu⌋
  let y0 : ℤ := ⌊tv⌋
  let x1 := x0 + 1
  let y1 := y0 + 1
  let dx := tu - (x0 : ℝ)
  let dy := tv - (y0 : ℝ)
  let x0w := modulo x0 w
  let x1w := modulo x1 w
  let y0w := modulo y0 h
  let y1w := modulo y1 h
  bilerp (img.get x0w y0w) (img.get x1w y0w) (img.get x0w y1w)
    (img.get x1w y1w) (dx, dy)

/-- Texture variants from `texture.rs`. -/
inductive Texture where
  | Constant (c : Vec3 ℝ)
  | Grid (c1 c2 : Vec3 ℝ) (s : ℕ) (w : ℝ)
  | Checker (on_color off_color : Vec3 ℝ) (resolution : ℝ × ℝ)
  | Bitmap (img : Image)

/-- Texture::eval for each variant (Checker casts to `i32` and tests the low
bit of the xor of the two indices). -/
def Texture.eval : Texture → ℝ × ℝ → Vec3 ℝ
  | Texture.Constant c, _ => c
  | Texture.Grid c1 c2 s w, uv =>
      let m := 1 / (s : ℝ)
      let in_band := frem (uv.1 + 1 + w / 2) m < w ∨ frem (uv.2 + 1 + w / 2) m < w
      if in_band then c2 else c1
  | Texture.Checker on_color off_color res, uv =>
      let ui := rustTrunc (res.1 * uv.1)
      let vi := rustTrunc (res.2 * uv.2)
      -- the source tests `(ui ^ vi) & 1 != 0` on `i32`; the low bit of a
      -- two's-complement integer is its parity, so the test holds exactly
      -- when the two indices have different parities
      let bit_on := ui % 2 ≠ vi % 2
      if bit_on then on_color else off_color
  | Texture.Bitmap img, uv => img.eval uv

/-- cos_theta from `material.rs`: the `y` component in shading space. -/
def cos_theta (v : Vec3 ℝ) : ℝ := v.y

/-- reflect from `material.rs`: negate `y`. -/
def reflect (dir_in : Vec3 ℝ) : Vec3 ℝ := ⟨dir_in.x, -dir_in.y, dir_in.z⟩

namespace microfacet

/-- microfacet::distribution (GGX): zero below the horizon. -/
def distribution (alpha ct : ℝ) : ℝ :=
  if ct ≤ 0 then 0
  else
    let alpha2 := alpha * alpha
    let ct2 := ct * ct
    let tan2 := (1 - ct2) / ct2
    let ct4 := ct2 * ct2
    let x := alpha2 + tan2
    alpha2 / (PI * ct4 * x * x)

/-- microfacet::shadowing_1d (Smith G1). -/
def shadowing_1d (alpha : ℝ) (v h : Vec3 ℝ) : ℝ :=
  let ct := cos_theta v
  if Vec3.dot v h * ct ≤ 0 then 0
  else
    let alpha2 := alpha * alpha
    let ct2 := ct * ct
    let tan2 := (1 - ct2) / ct2
    2 / (1 + Real.sqrt (1 + alpha2 * tan2))

/-- microfacet::shadowing: product of the two G1 factors. -/
def shadowing (alpha : ℝ) (dir_in dir_out h : Vec3 ℝ) : ℝ :=
  shadowing_1d alpha (-dir_in) h * shadowing_1d alpha dir_out h

/-- microfacet::pdf: `D(α, cosθ) * cosθ`. -/
def pdf (alpha ct : ℝ) : ℝ := distribution alpha ct * ct

end microfacet

/-- Complex index of refraction for conductors. -/
structure ComplexIOR where
  eta : Vec3 ℝ
  k : Vec3 ℝ

namespace fresnel

/-- fresnel::conductor_reflectance, single channel. -/
def conductor_reflectance (eta k cos_i : ℝ) : ℝ :=
  let cos_i2 := cos_i * cos_i
  let sin_i2 := 1 - cos_i2
  let sin_i4 := sin_i2 * sin_i2
  let x := eta * eta - k * k - sin_i2
  let a2_b2 := Real.sqrt (max (x * x + 4 * eta * eta * k * k) 0)
  let a := Real.sqrt ((a2_b2 + x) * 0.5)
  let r_s := ((a2_b2 + cos_i2) - (2 * a * cos_i)) / ((a2_b2 + cos_i2) + (2 * a * cos_i))
  let r_p := ((cos_i2 * a2_b2 + sin_i4) - (2 * a * cos_i * sin_i2)) /
    ((cos_i2 * a2_b2 + sin_i4) + (2 * a * cos_i * sin_i2))
  (r_s + r_s * r_p) * 0.5

/-- fresnel::conductor_reflectance_rgb: clamp `cos_i` and evaluate each
channel. -/
def conductor_reflectance_rgb (ior : ComplexIOR) (cos_i : ℝ) : Vec3 ℝ :=
  let c := max (min cos_i 1) (-1)
  ⟨conductor_reflectance ior.eta.x ior.k.x c,
    conductor_reflectance ior.eta.y ior.k.y c,
    conductor_reflectance ior.eta.z ior.k.z c⟩

end fresnel

/-- Diffuse (Lambertian) material. -/
structure Diffuse where
  albedo : Texture

/-- Diffuse::eval: `albedo * (INV_PI * cos_theta(dir_out).max(0.0))` — it
ignores `dir_in` entirely. -/
def Diffuse.eval (m : Diffuse) (_dir_in dir_out : Vec3 ℝ) (uv : ℝ × ℝ) : Vec3 ℝ :=
  m.albedo.eval uv * (INV_PI * max (cos_theta dir_out) 0)

/-- Diffuse::pdf: `INV_PI * cos_theta(dir_out).max(0.0)`. -/
def Diffuse.pdf (_m : Diffuse) (_dir_in dir_out : Vec3 ℝ) (_uv : ℝ × ℝ) : ℝ :=
  INV_PI * max (cos_theta dir_out) 0

/-- Plastic material: dielectric coat over Lambertian. -/
structure Plastic where
  albedo : Texture
  ior : ℝ

/-- Plastic::eval: zero if either hemisphere test fails (`||` guard), else
diffuse lobe attenuated by the Fresnel transmission. -/
def Plastic.eval (m : Plastic) (dir_in dir_out : Vec3 ℝ) (uv : ℝ × ℝ) : Vec3 ℝ :=
  let cos_i := -cos_theta dir_in
  let cos_o := cos_theta dir_out
  if cos_i ≤ 0 ∨ cos_o ≤ 0 then Vec3.zero
  else
    let eta := 1 / m.ior
    let f := (fresnel.dielectric_reflectance eta cos_i).1
    m.albedo.eval uv * (INV_PI * cos_o * (1 - f))

/-- Plastic::pdf: zero under the same `||` guard, else the cosine pdf scaled
by `1 - F`. -/
def Plastic.pdf (m : Plastic) (dir_in dir_out : Vec3 ℝ) (_uv : ℝ × ℝ) : ℝ :=
  let cos_i := -cos_theta dir_in
  let cos_o := cos_theta dir_out
  if cos_i ≤ 0 ∨ cos_o ≤ 0 then 0
  else
    let eta := 1 / m.ior
    let f := (fresnel.dielectric_reflectance eta cos_i).1
    cosine_hemisphere_pdf dir_out * (1 - f)

/-- RoughPlastic material. -/
structure RoughPlastic where
  albedo : Texture
  ior : ℝ
  roughness : Texture

/-- RoughPlastic::eval: `||` hemisphere guard, then microfacet specular plus
Fresnel-attenuated diffuse. -/
def RoughPlastic.eval (m : RoughPlastic) (dir_in dir_out : Vec3 ℝ)
    (uv : ℝ × ℝ) : Vec3 ℝ :=
  let cos_i := -cos_theta dir_in
  let cos_o := cos_theta dir_out
  if cos_i ≤ 0 ∨ cos_o ≤ 0 then Vec3.zero
  else
    let roughness := (m.roughness.eval uv).avg
    let h := (-dir_in + dir_out).normalized
    let eta := 1 / m.ior
    let f := (fresnel.dielectric_reflectance eta (-(Vec3.dot dir_in h))).1
    let d := microfacet.distribution roughness (cos_theta h)
    let g := microfacet.shadowing roughness dir_in dir_out h
    let spec_brdf := Vec3.thrice ((f * d * g) / (4 * cos_i))
    let diff_brdf := m.albedo.eval uv * (INV_PI * cos_o * (1 - f))
    spec_brdf + diff_brdf

/-- RoughPlastic::pdf: `||` hemisphere guard, then a 50/50 mix of the
half-vector pdf and the cosine pdf. -/
def RoughPlastic.pdf (m : RoughPlastic) (dir_in dir_out : Vec3 ℝ)
    (uv : ℝ × ℝ) : ℝ :=
  let cos_i := -cos_theta dir_in
  let cos_o := cos_theta dir_out
  if cos_i ≤ 0 ∨ cos_o ≤ 0 then 0
  else
    let spec_prob := (0.5 : ℝ)
    let roughness := (m.roughness.eval uv).avg
    let h := (-dir_in + dir_out).normalized
    let spec_pdf := microfacet.pdf roughness (cos_theta h) / (4 * Vec3.dot dir_out h)
    let diff_pdf := cosine_hemisphere_pdf dir_out
    spec_pdf * spec_prob + diff_pdf * (1 - spec_prob)

/-- RoughConductor material. -/
structure RoughConductor where
  albedo : Texture
  ior : ComplexIOR
  roughness : Texture

/-- RoughConductor::eval: note the guard is `cos_i ≤ 0 && cos_o ≤ 0` — both
sides must be below the horizon for the early zero. -/
def RoughConductor.eval (m : RoughConductor) (dir_in dir_out : Vec3 ℝ)
    (uv : ℝ × ℝ) : Vec3 ℝ :=
  let cos_i := -cos_theta dir_in
  let cos_o := cos_theta dir_out
  if cos_i ≤ 0 ∧ cos_o ≤ 0 then Vec3.zero
  else
    let roughness := (m.roughness.eval uv).avg
    let h := (-dir_in + dir_out).normalized
    let f := fresnel.conductor_reflectance_rgb m.ior (-(Vec3.dot dir_in h))
    let g := microfacet.shadowing roughness dir_in dir_out h
    let d := microfacet.distribution roughness (cos_theta h)
    m.albedo.eval uv * f * (g * d / (4 * cos_i))

/-- RoughConductor::pdf: same `&&` guard as eval. -/
def RoughConductor.pdf (m : RoughConductor) (dir_in dir_out : Vec3 ℝ)
    (uv : ℝ × ℝ) : ℝ :=
  let cos_i := -cos_theta dir_in
  let cos_o := cos_theta dir_out
  if cos_i ≤ 0 ∧ cos_o ≤ 0 then 0
  else
    let roughness := (m.roughness.eval uv).avg
    let h := (-dir_in + dir_out).normalized
    microfacet.pdf roughness (cos_theta h) / (4 * -(Vec3.dot dir_in h))

end Tracing

end

namespace Tracing

/-- Running prefix sums: `scanSums acc [a, b, ...] = [acc+a, acc+a+b, ...]`;
with `acc = 0` this is exactly the cdf loop of `make1d`. -/
def scanSums (acc : ℚ) : List ℚ → List ℚ
  | [] => []
  | a :: rest => (acc + a) :: scanSums (acc + a) rest

/-- make1d from `distribution.rs`.  The source writes `cdf[0] = pdf[0]` and
then accumulates, so an empty slice is an index panic — modelled by `none`.
On a non-positive total it warns and returns `0.0` leaving both arrays
unnormalised; otherwise it divides both arrays by the total and returns it.
The result is `(pdf, cdf, returned total)`. -/
def make1d (pdf : List ℚ) : Option (List ℚ × List ℚ × ℚ) :=
  match pdf with
  | [] => none
  | p0 :: rest =>
    let cdf := scanSums 0 (p0 :: rest)
    let total := (cdf.getLast?).getD 0
    if total ≤ 0 then
      some (p0 :: rest, cdf, 0)
    else
      some ((p0 :: rest).map (fun v => v / total),
        cdf.map (fun v => v / total), total)

/-- Importance-samplable 1D distribution (`Distribution1D`). -/
structure Distribution1D where
  pdf : List ℚ
  cdf : List ℚ

/-- Distribution1D::new: runs `make1d` on the weights (discarding the
returned total). -/
def Distribution1D.new (weights : List ℚ) : Option Distribution1D :=
  (make1d weights).map fun r => ⟨r.1, r.2.1⟩

/-- Row-major 2D distribution (`Distribution2D`). -/
structure Distribution2D where
  width : ℕ
  height : ℕ
  conditional_pdf : List ℚ
  conditional_cdf : List ℚ
  marginal_pdf : List ℚ
  marginal_cdf : List ℚ

/-- Split a list into consecutive chunks of length `w` (the row view taken
by `par_chunks_mut(width)`). -/
def chunks (w : ℕ) (l : List ℚ) : List (List ℚ) :=
  if h : w = 0 ∨ l = [] then []
  else l.take w :: chunks w (l.drop w)
termination_by l.length
decreasing_by
  push_neg at h
  obtain ⟨hw, hl⟩ := h
  simp only [List.length_drop]
  have : 0 < l.length := List.length_pos.mpr hl
  omega

/-- Distribution2D::new: one `make1d` per row (collecting the row totals as
marginal weights), then `make1d` on the marginal.  `none` models the panics
(zero chunk width, empty rows). -/
def Distribution2D.new (weights : List ℚ) (width height : ℕ) :
    Option Distribution2D :=
  if width = 0 then none
  else
    ((chunks width weights).mapM make1d).bind fun results =>
      let conditional_pdf := (results.map fun r => r.1).flatten
      let conditional_cdf := (results.map fun r => r.2.1).flatten
      let marginal_weights := results.map fun r => r.2.2
      (make1d marginal_weights).bind fun mres =>
        some ⟨width, height, conditional_pdf, conditional_cdf,
          mres.1, mres.2.1⟩

/-- The value computed by a successful `make1d` call. -/
def make1dD (r : List ℚ) : List ℚ × List ℚ × ℚ := (make1d r).getD ([], [], 0)

end Tracing

noncomputable section

namespace Tracing

/-- BSDF sample record from `material.rs`. -/
structure BSDFSample where
  direction : Vec3 ℝ
  pdf : ℝ
  weight : Vec3 ℝ
  is_specular : Bool

/-- The `Material` trait as a structure of functions. -/
structure Material where
  sample : Vec3 ℝ → ℝ × ℝ → Vec3 ℝ → BSDFSample
  eval : Vec3 ℝ → Vec3 ℝ → ℝ × ℝ → Vec3 ℝ
  pdf : Vec3 ℝ → Vec3 ℝ → ℝ × ℝ → ℝ
  is_purely_specular : Bool

/-- Direct-lighting sample from `light.rs`. -/
structure DirectSample where
  dir : Vec3 ℝ
  dist : ℝ
  pdf : ℝ

/-- The `Light` trait as a structure of functions. -/
structure Light where
  eval_direct : Vec3 ℝ → Vec3 ℝ
  sample_direct : Vec3 ℝ → ℝ × ℝ → Vec3 ℝ × DirectSample
  pdf_direct : Vec3 ℝ → ℝ → ℝ

/-- Intersection record from `geometry.rs`. -/
structure Intersection where
  distance : ℝ
  normal : Vec3 ℝ
  uv : ℝ × ℝ

/-- The `Hit` enum from `scene.rs`. -/
inductive Hit where
  | Emitter (light : Light) (dist : ℝ)
  | Scatterer (its : Intersection) (mat : Material)

/-- The scene operations used by the integrator (`scene.rs`), abstracted as
oracles exactly as the integrator consumes them. -/
structure Scene where
  intersect : Ray ℝ → Option Hit
  nb_lights : ℕ
  get_light : ℕ → Option Light
  occluded : Vec3 ℝ → Vec3 ℝ → Vec3 ℝ → ℝ → Bool

/-- mis2 from `integrator.rs`: the power heuristic
`p² / (p² + q²)` with `power(x) = x*x`. -/
def mis2 (sample_pdf other_pdf : ℝ) : ℝ :=
  sample_pdf * sample_pdf /
    (sample_pdf * sample_pdf + other_pdf * other_pdf)

/-- Mutable path state of `estimate_radiance`, plus `k`, the cursor into the
random stream (`rng.gen()` reads `R k` and advances the cursor). -/
structure PathState where
  k : ℕ
  path_weight : Vec3 ℝ
  radiance : Vec3 ℝ
  ray : Ray ℝ
  specular_bounce : Bool
  last_pdf_dir : ℝ

/-- One iteration of the bounce loop of `estimate_radiance`
(`integrator.rs` lines 21–95): either the loop breaks with a final radiance
(`Sum.inr`) or continues with the updated state (`Sum.inl`).  The Rust
`(nb_lights as f32 * rng.gen()) as usize` cast is floor-to-nat. -/
def bounce_step (scene : Scene) (R : ℕ → ℝ) (nb_bounces : ℕ)
    (s : PathState) : PathState ⊕ Vec3 ℝ :=
  let light_pick_prob := 1 / (scene.nb_lights : ℝ)
  match scene.intersect s.ray with
  | none => Sum.inr s.radiance
  | some (Hit.Emitter light dist) =>
      let contrib := light.eval_direct s.ray.direction
      let mis_weight :=
        if s.specular_bounce = false then
          mis2 s.last_pdf_dir
            (light.pdf_direct s.ray.direction dist * light_pick_prob)
        else 1
      Sum.inr (s.radiance + s.path_weight * mis_weight * contrib)
  | some (Hit.Scatterer intersection material) =>
      let normal := intersection.normal
      let hit := s.ray.point_at intersection.distance
      let shading_frame := Frame.from_up normal
      let local_in := shading_frame.to_local s.ray.direction
      let cont_prob := min (s.path_weight.max_elem) 1
      let nee :=
        if material.is_purely_specular = false ∧ 0 < scene.nb_lights then
          let light_idx := (⌊(scene.nb_lights : ℝ) * R s.k⌋).toNat
          match scene.get_light light_idx with
          | none => (s.radiance, s.k + 1)
          | some light =>
              let es := light.sample_direct hit (R (s.k + 1), R (s.k + 2))
              if scene.occluded hit normal es.2.dir es.2.dist = false then
                let local_out := shading_frame.to_local es.2.dir
                let bsdf_eval := material.eval local_in local_out intersection.uv
                let bsdf_pdf := material.pdf local_in local_out intersection.uv
                let mis_weight :=
                  mis2 (es.2.pdf * light_pick_prob) (bsdf_pdf * cont_prob)
                (s.radiance + s.path_weight * es.1 * bsdf_eval *
                  (mis_weight / (es.2.pdf * light_pick_prob)), s.k + 3)
              else (s.radiance, s.k + 3)
        else (s.radiance, s.k)
      let bsdf_sample :=
        material.sample local_in intersection.uv ⟨R nee.2, R (nee.2 + 1), R (nee.2 + 2)⟩
      if bsdf_sample.weight = Vec3.zero then Sum.inr nee.1
      else if 64 < nb_bounces then Sum.inr nee.1
      else
        let last_pdf_dir := bsdf_sample.pdf * cont_prob
        let rr :=
          if cont_prob < 1 then
            if cont_prob ≤ R (nee.2 + 3) then none
            else some (s.path_weight / cont_prob, nee.2 + 4)
          else some (s.path_weight, nee.2 + 3)
        match rr with
        | none => Sum.inr nee.1
        | some pw =>
            let path_weight := pw.1 * bsdf_sample.weight
            let new_dir := (shading_frame.to_world bsdf_sample.direction).normalized
            let eps := if 0 ≤ Vec3.dot normal new_dir then EPSILON else -EPSILON
            Sum.inl ⟨pw.2, path_weight, nee.1,
              ⟨hit + normal * eps * (2 : ℝ), new_dir⟩,
              bsdf_sample.is_specular, last_pdf_dir⟩

/-- The bounce loop, returning the final radiance together with the number
of iterations executed.  The recursion is guarded by the `> 64` bounce check
inside `bounce_step`; the `nb_bounces > 64` continue-branch below is dead
code needed only to exhibit the decreasing measure. -/
def estimate_radiance_loop (scene : Scene) (R : ℕ → ℝ) (nb_bounces : ℕ)
    (s : PathState) : Vec3 ℝ × ℕ :=
  match bounce_step scene R nb_bounces s with
  | Sum.inr rad => (rad, 1)
  | Sum.inl s' =>
      if h : nb_bounces ≤ 64 then
        let r := estimate_radiance_loop scene R (nb_bounces + 1) s'
        (r.1, r.2 + 1)
      else (s'.radiance, 1)
termination_by 65 - nb_bounces

/-- estimate_radiance from `integrator.rs`: runs the bounce loop from the
initial state `radiance = 0`, `path_weight = (1,1,1)`, `specular_bounce =
true`, `last_pdf_dir = 1`. -/
def estimate_radiance (scene : Scene) (ray : Ray ℝ) (R : ℕ → ℝ) : Vec3 ℝ :=
  (estimate_radiance_loop scene R 0
    ⟨0, Vec3.thrice 1, Vec3.zero, ray, true, 1⟩).1

/-- Concrete Lambertian-style material oracle used by the C3 witness. -/
def matW : Material :=
  ⟨fun _ _ _ => ⟨⟨0, 1, 0⟩, 1, ⟨1, 1, 1⟩, false⟩,
    fun _ _ _ => ⟨1, 1, 1⟩, fun _ _ _ => 1, false⟩

/-- Concrete light oracle used by the C3 witness. -/
def lightW : Light :=
  ⟨fun _ => ⟨1, 1, 1⟩, fun _ _ => (⟨1, 1, 1⟩, ⟨⟨0, 1, 0⟩, 1, 1⟩),
    fun _ _ => 1⟩

/-- Concrete one-light scene used by the C3 witness. -/
def sceneW : Scene :=
  ⟨fun _ => some (Hit.Scatterer ⟨1, ⟨0, 1, 0⟩, (0, 0)⟩ matW), 1,
    fun _ => some lightW, fun _ _ _ _ => false⟩

/-- Concrete initial path state used by the C3 witness. -/
def stateW : PathState :=
  ⟨0, Vec3.thrice 1, Vec3.zero, ⟨Vec3.zero, ⟨0, 0, 1⟩⟩, true, 1⟩

end Tracing

end

namespace Tracing

/-- INTERSECTION_COST from `bvh.rs`. -/
def INTERSECTION_COST : ℚ := 1

/-- TRAVERSAL_COST from `bvh.rs`. -/
def TRAVERSAL_COST : ℚ := 3 / 2

/-- Axis-aligned bounding box over exact scalars (`math/aabb.rs`); the
source fields `min`/`max` are named `lo`/`hi` here to avoid clashing with
the order functions. -/
structure AABB where
  lo : Vec3 ℚ
  hi : Vec3 ℚ
deriving DecidableEq, Repr

namespace AABB

/-- AABB::surface_area: `2(dx dy + dx dz + dy dz)` with `d = max - min`. -/
def surface_area (b : AABB) : ℚ :=
  let d := b.hi - b.lo
  2 * (d.x * d.y + d.x * d.z + d.y * d.z)

/-- AABB::union: componentwise min of mins, max of maxes. -/
def union (a b : AABB) : AABB :=
  ⟨Vec3.vmin a.lo b.lo, Vec3.vmax a.hi b.hi⟩

/-- AABB::intersect_fast: the slab test, `(-1, -1)` when the slabs do not
overlap. -/
def intersect_fast (b : AABB) (ray : Ray ℚ) (inv_dir : Vec3 ℚ) : ℚ × ℚ :=
  let t_min := (b.lo - ray.origin) * inv_dir
  let t_max := (b.hi - ray.origin) * inv_dir
  let t1 := Vec3.vmin t_min t_max
  let t2 := Vec3.vmax t_min t_max
  let t_near := max (max t1.x t1.y) t1.z
  let t_far := min (min t2.x t2.y) t2.z
  if t_near > t_far then (-1, -1) else (t_near, t_far)

end AABB

/-- AABB::empty() is `(min, max) = (+∞, -∞)`, which exact rationals cannot
carry; an accumulated box is therefore an `Option AABB` with `none` for the
empty box.  Union against the empty box returns the other operand — exactly
the effect of componentwise min/max against `(+∞, -∞)`. -/
def unionO : Option AABB → AABB → AABB
  | none, b => b
  | some a, b => a.union b

/-- Union of a list of boxes, accumulated from `AABB::empty()` exactly as
the build loops do. -/
def unionList (l : List AABB) : Option AABB :=
  l.foldl (fun acc b => some (unionO acc b)) none

/-- The BVH tree from `bvh.rs` (the `bbox`/`node` pair flattened into the
two node constructors; `none` is the empty box of an empty build). -/
inductive BVH where
  | leaf (bbox : Option AABB) (bg en : ℕ)
  | split (bbox : Option AABB) (split_axis : Axis) (c1 c2 : BVH)

/-- Node bounding box. -/
def BVH.bbox : BVH → Option AABB
  | BVH.leaf bb _ _ => bb
  | BVH.split bb _ _ _ => bb

/-- sort_projected_centroid: stable sort of the items by the centroid
projection on the given axis (total on `ℚ`; the NaN panic cannot occur). -/
def sort_projected_centroid {I : Type} (pc : I → Axis → ℚ) (items : List I)
    (axis : Axis) : List I :=
  items.mergeSort fun a b => decide (pc a axis ≤ pc b axis)

/-- Incremental union areas: the scratch-buffer loop of `build_rec`
(`buffer[i] = surface_area` of the union of the first `i+1` boxes). -/
def areaScan (acc : Option AABB) : List AABB → List ℚ
  | [] => []
  | b :: rest => (unionO acc b).surface_area ::
      areaScan (some (unionO acc b)) rest

/-- The SAH candidates of one axis in the scan order of the source
(`i = n-1` down to `1`), over the items sorted for that axis:
`cost i = 2·TRAVERSAL_COST + tri_factor · (i · buffer[i-1] + (n-i) · suffix_area i)`. -/
def axisCands {I : Type} (ib : I → AABB) (axis : Axis) (s : List I)
    (tri_factor : ℚ) : List (Axis × ℕ × ℚ) :=
  let n := s.length
  let buffer := areaScan none (s.map ib)
  let suff := areaScan none (s.map ib).reverse
  ((List.range' 1 (n - 1)).reverse).map fun i =>
    (axis, i, 2 * TRAVERSAL_COST + tri_factor *
      ((i : ℚ) * buffer.getD (i - 1) 0 +
        ((n - i : ℕ) : ℚ) * suff.getD (n - 1 - i) 0))

/-- The `sah_cost < best_cost` selection fold of `build_rec`. -/
def selBest (cands : List (Axis × ℕ × ℚ)) (init : Option (Axis × ℕ) × ℚ) :
    Option (Axis × ℕ) × ℚ :=
  cands.foldl
    (fun best c => if c.2.2 < best.2 then (some (c.1, c.2.1), c.2.2) else best)
    init

/-- The items after the axis-X sort of `build_rec`. -/
def itemsSortedX {I : Type} (pc : I → Axis → ℚ) (items : List I) : List I :=
  sort_projected_centroid pc items Axis.X

/-- The items after the cumulative X-then-Y sorts of `build_rec`. -/
def itemsSortedXY {I : Type} (pc : I → Axis → ℚ) (items : List I) : List I :=
  sort_projected_centroid pc (itemsSortedX pc items) Axis.Y

/-- The items after all three cumulative sorts of `build_rec`. -/
def itemsSortedXYZ {I : Type} (pc : I → Axis → ℚ) (items : List I) : List I :=
  sort_projected_centroid pc (itemsSortedXY pc items) Axis.Z

/-- The node box of `build_rec`: recorded during the first (X) axis pass as
the full prefix union (the union of all item boxes). -/
def rootBBox {I : Type} (pc : I → Axis → ℚ) (ib : I → AABB)
    (items : List I) : Option AABB :=
  unionList ((itemsSortedX pc items).map ib)

/-- The factor `INTERSECTION_COST / node_bbox.surface_area()`; for the empty box the
float surface area is `+∞` and the factor `0`, unused since there are then
no candidates. -/
def rootTriFactor {I : Type} (pc : I → Axis → ℚ) (ib : I → AABB)
    (items : List I) : ℚ :=
  match rootBBox pc ib items with
  | some bb => INTERSECTION_COST / bb.surface_area
  | none => 0

/-- All SAH candidates examined by one `build_rec` node, in scan order:
axes X, Y, Z, the items re-sorted cumulatively for each axis, split indices
descending. -/
def buildCands {I : Type} (pc : I → Axis → ℚ) (ib : I → AABB)
    (items : List I) : List (Axis × ℕ × ℚ) :=
  axisCands ib Axis.X (itemsSortedX pc items) (rootTriFactor pc ib items) ++
    axisCands ib Axis.Y (itemsSortedXY pc items) (rootTriFactor pc ib items) ++
    axisCands ib Axis.Z (itemsSortedXYZ pc items) (rootTriFactor pc ib items)

/-- build_rec from `bvh.rs`, returning the tree together with the reordered
items (the source sorts the slice in place).  `fuel` bounds the recursion
depth; `BVH.build` passes the item count, which suffices because every split
is proper — the zero-fuel branch (returning a leaf over the whole range,
which is still a well-formed tree) is never reached from `BVH.build`. -/
def build_rec {I : Type} (pc : I → Axis → ℚ) (ib : I → AABB) :
    ℕ → List I → ℕ → BVH × List I
  | 0, items, bg =>
      (BVH.leaf (rootBBox pc ib items) bg (bg + items.length), items)
  | fuel + 1, items, bg =>
      let n := items.length
      let node_bbox := rootBBox pc ib items
      let best := selBest (buildCands pc ib items)
        (none, INTERSECTION_COST * (n : ℚ))
      let itemsZ := itemsSortedXYZ pc items
      match best.1 with
      | none => (BVH.leaf node_bbox bg (bg + n), itemsZ)
      | some (axis, idx) =>
          let sorted :=
            if axis ≠ Axis.Z then sort_projected_centroid pc itemsZ axis
            else itemsZ
          let r1 := build_rec pc ib fuel (sorted.take idx) bg
          let r2 := build_rec pc ib fuel (sorted.drop idx) (bg + idx)
          (BVH.split node_bbox axis r1.1 r2.1, r1.2 ++ r2.2)

/-- BVH::build: runs `build_rec` over the whole item list (the scratch
buffer is modelled inside `axisCands`). -/
def BVH.build {I : Type} (pc : I → Axis → ℚ) (ib : I → AABB)
    (items : List I) : BVH × List I :=
  build_rec pc ib items.length items 0

/-- One step of the `intersect_items` scan: keep the smallest strictly
positive `t` seen so far (the `INFINITY` sentinel becomes `none`). -/
def itemStep {D : Type} (f : Ray ℚ → ℕ → ℚ × D) (ray : Ray ℚ)
    (acc : Option ℚ × ℕ × D) (i : ℕ) : Option ℚ × ℕ × D :=
  let td := f ray i
  match acc.1 with
  | none => if 0 < td.1 then (some td.1, i, td.2) else acc
  | some tmin =>
      if 0 < td.1 ∧ td.1 < tmin then (some td.1, i, td.2) else acc

/-- intersect_items from `bvh.rs`: scan the leaf range for the smallest
strictly-positive `t`, with `(-1, …)` for a miss. -/
def intersect_items {D : Type} [Inhabited D] (f : Ray ℚ → ℕ → ℚ × D)
    (ray : Ray ℚ) (bg en : ℕ) : ℚ × ℕ × D :=
  let r := (List.range' bg (en - bg)).foldl (itemStep f ray)
    ((none : Option ℚ), 0, (default : D))
  match r.1 with
  | none => (-1, r.2.1, r.2.2)
  | some tmin => (tmin, r.2.1, r.2.2)

/-- Invariant of the `intersect_items` fold over the indices already
scanned. -/
def ItemInv {D : Type} (f : Ray ℚ → ℕ → ℚ × D) (ray : Ray ℚ)
    (seen : List ℕ) (acc : Option ℚ × ℕ × D) : Prop :=
  (acc.1 = none ∧ ∀ i ∈ seen, (f ray i).1 ≤ 0) ∨
  (∃ tmin, acc.1 = some tmin ∧ 0 < tmin ∧
    ∃ i ∈ seen, (f ray i).1 = tmin ∧ acc.2.1 = i ∧ acc.2.2 = (f ray i).2 ∧
      ∀ j ∈ seen, 0 < (f ray j).1 → tmin ≤ (f ray j).1)

/-- The early-return cull test of `intersect_rec`:
`t_far < 0.0 || (t_near >= 0.0 && t_near >= dist_max)` against the node box
(`dist_max` lives in `WithTop ℚ` since the top-level call passes `INFINITY`;
the empty box of an empty tree never culls, matching the `±∞` slab
arithmetic). -/
def cullB (ray : Ray ℚ) (inv_dir : Vec3 ℚ) (bbox : Option AABB)
    (dist_max : WithTop ℚ) : Bool :=
  match bbox with
  | none => false
  | some bb =>
      let tnf := bb.intersect_fast ray inv_dir
      decide (tnf.2 < 0) ||
        (decide (0 ≤ tnf.1) && decide (dist_max ≤ ((tnf.1 : ℚ) : WithTop ℚ)))

/-- intersect_rec from `bvh.rs`: slab-cull against the node box, then scan a
leaf or recurse front-to-back through a split with the current best distance
as the new bound. -/
def intersect_rec {D : Type} [Inhabited D] (f : Ray ℚ → ℕ → ℚ × D)
    (ray : Ray ℚ) (inv_dir : Vec3 ℚ) :
    BVH → WithTop ℚ → ℚ × ℕ × D
  | BVH.leaf bb bg en, dist_max =>
      if cullB ray inv_dir bb dist_max then (-1, 0, default)
      else intersect_items f ray bg en
  | BVH.split bb ax c1 c2, dist_max =>
      if cullB ray inv_dir bb dist_max then (-1, 0, default)
      else if ray.direction.get ax < 0 then
        let its1 := intersect_rec f ray inv_dir c2 dist_max
        if its1.1 < 0 then intersect_rec f ray inv_dir c1 dist_max
        else
          let its2 := intersect_rec f ray inv_dir c1 ((its1.1 : ℚ) : WithTop ℚ)
          if its2.1 < 0 ∨ its1.1 < its2.1 then its1 else its2
      else
        let its1 := intersect_rec f ray inv_dir c1 dist_max
        if its1.1 < 0 then intersect_rec f ray inv_dir c2 dist_max
        else
          let its2 := intersect_rec f ray inv_dir c2 ((its1.1 : ℚ) : WithTop ℚ)
          if its2.1 < 0 ∨ its1.1 < its2.1 then its1 else its2

/-- BVH::intersect: starts the recursion with `dist_max = INFINITY` and
`inv_dir = 1.0 / ray.direction` (componentwise). -/
def BVH.intersect {D : Type} [Inhabited D] (t : BVH)
    (f : Ray ℚ → ℕ → ℚ × D) (ray : Ray ℚ) : ℚ × ℕ × D :=
  intersect_rec f ray ((1 : ℚ) / ray.direction) t ⊤

/-- Item indices covered by a tree, leaves left to right. -/
def idxs : BVH → List ℕ
  | BVH.leaf _ bg en => List.range' bg (en - bg)
  | BVH.split _ _ c1 c2 => idxs c1 ++ idxs c2

/-- Leaf ranges of a tree, left to right. -/
def leafRanges : BVH → List (ℕ × ℕ)
  | BVH.leaf _ bg en => [(bg, en)]
  | BVH.split _ _ c1 c2 => leafRanges c1 ++ leafRanges c2

/-- Membership of a point in a box (all six slab inequalities). -/
def memB (p : Vec3 ℚ) (bb : AABB) : Prop :=
  bb.lo.x ≤ p.x ∧ p.x ≤ bb.hi.x ∧ bb.lo.y ≤ p.y ∧ p.y ≤ bb.hi.y ∧
    bb.lo.z ≤ p.z ∧ p.z ≤ bb.hi.z

instance (p : Vec3 ℚ) (bb : AABB) : Decidable (memB p bb) := by
  unfold memB
  infer_instance

/-- Geometric well-formedness of a tree with respect to per-index item
boxes: every covered item's box is contained in every ancestor's box. -/
def wf (boxOf : ℕ → AABB) : BVH → Prop
  | BVH.leaf bb bg en =>
      ∀ i ∈ List.range' bg (en - bg), ∀ p, memB p (boxOf i) →
        ∀ b', bb = some b' → memB p b'
  | BVH.split bb _ c1 c2 =>
      (∀ i ∈ idxs c1 ++ idxs c2, ∀ p, memB p (boxOf i) →
        ∀ b', bb = some b' → memB p b') ∧ wf boxOf c1 ∧ wf boxOf c2

/-- Contract of the BVH traversal on an index set `L`: either a miss with
every positive hit at or beyond `dmax`, or a strictly positive hit whose
`t`, index and data agree with `f`, and which is minimal among hits below
`dmax`. -/
def Contract {D : Type} (f : Ray ℚ → ℕ → ℚ × D) (ray : Ray ℚ) (L : List ℕ)
    (dmax : WithTop ℚ) (r : ℚ × ℕ × D) : Prop :=
  (r.1 = -1 ∧ ∀ i ∈ L, 0 < (f ray i).1 →
      dmax ≤ (((f ray i).1 : ℚ) : WithTop ℚ)) ∨
  (0 < r.1 ∧ ∃ i ∈ L, (f ray i).1 = r.1 ∧ r.2.1 = i ∧ r.2.2 = (f ray i).2 ∧
    ∀ j ∈ L, 0 < (f ray j).1 →
      r.1 ≤ (f ray j).1 ∨ dmax ≤ (((f ray j).1 : ℚ) : WithTop ℚ))

/-- Concrete centroid projection for the C1 witness. -/
def pcW : ℕ → Axis → ℚ := fun i _ => (i : ℚ)

/-- Concrete item bounding box (the cube `[-1,1]^3`) for the C1 witness. -/
def ibW : ℕ → AABB := fun _ => ⟨⟨-1, -1, -1⟩, ⟨1, 1, 1⟩⟩

/-- Concrete item-intersection oracle for the C1 witness. -/
def fW : Ray ℚ → ℕ → ℚ × Unit := fun _ _ => (1 / 2, ())

/-- Concrete ray for the C1 witness. -/
def rayW : Ray ℚ := ⟨⟨0, 0, 0⟩, ⟨1, 1, 1⟩⟩

end Tracing

namespace Tracing

namespace Vec3

variable {α : Type} [LinearOrderedField α]

@[simp] theorem add_def (a b : Vec3 α) :
    a + b = ⟨a.x + b.x, a.y + b.y, a.z + b.z⟩ := rfl

@[simp] theorem sub_def (a b : Vec3 α) :
    a - b = ⟨a.x - b.x, a.y - b.y, a.z - b.z⟩ := rfl

@[simp] theorem mul_def (a b : Vec3 α) :
    a * b = ⟨a.x * b.x, a.y * b.y, a.z * b.z⟩ := rfl

@[simp] theorem smul_right_def (a : Vec3 α) (s : α) :
    a * s = Vec3.mk (a.x * s) (a.y * s) (a.z * s) := rfl

@[simp] theorem smul_left_def (a : Vec3 α) (s : α) :
    s * a = Vec3.mk (s * a.x) (s * a.y) (s * a.z) := rfl

@[simp] theorem neg_def (a : Vec3 α) : -a = Vec3.mk (-a.x) (-a.y) (-a.z) := rfl

@[simp] theorem div_scalar_def (a : Vec3 α) (s : α) :
    a / s = Vec3.mk (a.x * (1 / s)) (a.y * (1 / s)) (a.z * (1 / s)) := rfl

theorem scalar_div_def (s : α) (a : Vec3 α) :
    s / a = Vec3.mk (s / a.x) (s / a.y) (s / a.z) := rfl

end Vec3

/-- With both numerator terms non-negative, the squared amplitude ratio
`((a-b)/(a+b))²` is at most 1 (division by zero yields 0 in the model). -/
theorem ratio_sq_le_one {a b : ℝ} (ha : 0 ≤ a) (hb : 0 ≤ b) :
    ((a - b) / (a + b)) * ((a - b) / (a + b)) ≤ 1 := by
  rcases eq_or_lt_of_le (add_nonneg ha hb) with h | h
  · rw [← h, div_zero]
    norm_num
  · have habs : |a - b| ≤ |a + b| := by
      rw [abs_of_pos h, abs_le]
      constructor <;> nlinarith
    have h2 : |(a - b) / (a + b)| ≤ 1 := by
      rw [abs_div]
      exact div_le_one_of_le₀ habs (abs_nonneg _)
    calc ((a - b) / (a + b)) * ((a - b) / (a + b))
        = |(a - b) / (a + b)| * |(a - b) / (a + b)| := by
          rw [← abs_mul, abs_of_nonneg (mul_self_nonneg _)]
      _ ≤ 1 := mul_le_one₀ h2 (abs_nonneg _) h2

/-- Core bounds for the dielectric Fresnel term on the physically meaningful
domain `eta ≥ 0`, `cos_i ≥ 0`: the reflectance lies in `[0, 1]`, and the
total-internal-reflection branch returns exactly `(1, 0)`. -/
theorem dielectric_reflectance_core (eta cos_i : ℝ) (heta : 0 ≤ eta)
    (hcos : 0 ≤ cos_i) :
    0 ≤ (fresnel.dielectric_reflectance eta cos_i).1 ∧
      (fresnel.dielectric_reflectance eta cos_i).1 ≤ 1 ∧
      (eta * eta * (1 - max (min cos_i 1) (-1) * max (min cos_i 1) (-1)) > 1 →
        fresnel.dielectric_reflectance eta cos_i = (1, 0)) := by
  unfold fresnel.dielectric_reflectance
  set c := max (min cos_i 1) (-1) with hc
  have hc0 : 0 ≤ c := le_max_of_le_left (le_min hcos one_pos.le)
  set sin_t2 := eta * eta * (1 - c * c) with hs2
  by_cases htir : sin_t2 > 1
  · simp only [htir, if_true]
    norm_num
  · simp only [htir, if_false]
    have hsub : 0 ≤ 1 - sin_t2 := by
      push_neg at htir
      linarith
    have hct : 0 ≤ Real.sqrt (1 - sin_t2) := Real.sqrt_nonneg _
    set cos_t := Real.sqrt (1 - sin_t2) with hcostt
    have ha1 : 0 ≤ eta * c := mul_nonneg heta hc0
    have ha2 : 0 ≤ eta * cos_t := mul_nonneg heta hct
    have hrs := ratio_sq_le_one ha1 hct
    have hrp := ratio_sq_le_one ha2 hc0
    refine ⟨?_, ?_, fun h => h.elim⟩
    · have := mul_self_nonneg ((eta * c - cos_t) / (eta * c + cos_t))
      have := mul_self_nonneg ((eta * cos_t - c) / (eta * cos_t + c))
      nlinarith
    · nlinarith

/-- C6. The claim asserts `F ∈ [0,1]` for ALL `(eta, cos_theta_i)` and that
`(1.0, 0.0)` is returned iff `sin²θₜ > 1`.  It fails for negative `cos_i`:
at `eta = 6/5`, `cos_i = -3/5` the amplitude formulas give `F = 1073/121 > 1`
(in exact real arithmetic; the `f32` code also yields `F > 1` there). -/
theorem claim_C6_counterexample :
    1 < (fresnel.dielectric_reflectance (6 / 5) (-(3 / 5) : ℝ)).1 := by
  have hclamp : max (min (-(3 / 5) : ℝ) 1) (-1) = -(3 / 5) := by norm_num
  unfold fresnel.dielectric_reflectance
  rw [hclamp]
  rw [if_neg (by norm_num)]
  have hsq : Real.sqrt (1 - (6 / 5 : ℝ) * (6 / 5) * (1 - -(3 / 5) * -(3 / 5)))
      = 7 / 25 := by
    rw [show (1 - (6 / 5 : ℝ) * (6 / 5) * (1 - -(3 / 5) * -(3 / 5))) = (7 / 25) ^ 2 by
      norm_num]
    exact Real.sqrt_sq (by norm_num)
  rw [hsq]
  norm_num

/-- C6 (amended): restricted to the physically meaningful quadrant
`eta ≥ 0 ∧ cos_theta_i ≥ 0`, `dielectric_reflectance` returns `F ∈ [0, 1]`,
and when `sin²θₜ = η²(1 − c²) > 1` (with `c` the clamp of `cos_theta_i` to
`[-1, 1]`) it returns exactly `(1.0, 0.0)`.  (The converse of the claim's
"iff" also fails at grazing incidence `sin²θₜ = 1`, e.g. `η = 5/4`,
`cos_i = 3/5`, where the amplitude formulas themselves produce `(1, 0)`.) -/
theorem claim_C6 (eta cos_i : ℝ) (heta : 0 ≤ eta) (hcos : 0 ≤ cos_i) :
    0 ≤ (fresnel.dielectric_reflectance eta cos_i).1 ∧
      (fresnel.dielectric_reflectance eta cos_i).1 ≤ 1 ∧
      (eta * eta * (1 - max (min cos_i 1) (-1) * max (min cos_i 1) (-1)) > 1 →
        fresnel.dielectric_reflectance eta cos_i = (1, 0)) :=
  dielectric_reflectance_core eta cos_i heta hcos

/-- Witness for C6 at `eta = 2`, `cos_i = 1/2` (a total internal reflection
configuration: `sin²θₜ = 3 > 1`). -/
theorem claim_C6_witness :
    0 ≤ (fresnel.dielectric_reflectance 2 (1 / 2)).1 ∧
      (fresnel.dielectric_reflectance 2 (1 / 2)).1 ≤ 1 ∧
      fresnel.dielectric_reflectance 2 (1 / 2) = (1, 0) := by
  obtain ⟨h1, h2, h3⟩ := claim_C6 2 (1 / 2) (by norm_num) (by norm_num)
  exact ⟨h1, h2, h3 (by norm_num)⟩

/-- C10: for `(u, v) ∈ [0,1)²`, `cosine_hemisphere (u, v)` lies exactly on
the closed upper unit hemisphere — its squared norm is `u + (1 - u) = 1` and
its `y` component `√(1-u)` is non-negative — even though the same `u` feeds
both the disk radius and `y`; consequently `cosine_hemisphere_pdf` of the
returned vector is `√(1-u) / π`. -/
theorem claim_C10 (u v : ℝ) (hu0 : 0 ≤ u) (hu1 : u < 1)
    (hv0 : 0 ≤ v) (hv1 : v < 1) :
    (cosine_hemisphere (u, v)).x * (cosine_hemisphere (u, v)).x +
        (cosine_hemisphere (u, v)).y * (cosine_hemisphere (u, v)).y +
        (cosine_hemisphere (u, v)).z * (cosine_hemisphere (u, v)).z = 1 ∧
      0 ≤ (cosine_hemisphere (u, v)).y ∧
      cosine_hemisphere_pdf (cosine_hemisphere (u, v)) =
        Real.sqrt (1 - u) / PI := by
  simp only [cosine_hemisphere, uniform_disk, cosine_hemisphere_pdf]
  refine ⟨?_, Real.sqrt_nonneg _, ?_⟩
  · have hru : Real.sqrt u * Real.sqrt u = u := Real.mul_self_sqrt hu0
    have hry : Real.sqrt (1 - u) * Real.sqrt (1 - u) = 1 - u :=
      Real.mul_self_sqrt (by linarith)
    have htrig := Real.sin_sq_add_cos_sq (2 * PI * v)
    nlinarith [htrig]
  · rw [INV_PI, mul_one_div]

/-- Witness for C10 at `(u, v) = (0, 0)`. -/
theorem claim_C10_witness :
    (cosine_hemisphere ((0 : ℝ), (0 : ℝ))).x * (cosine_hemisphere (0, 0)).x +
        (cosine_hemisphere (0, 0)).y * (cosine_hemisphere (0, 0)).y +
        (cosine_hemisphere (0, 0)).z * (cosine_hemisphere (0, 0)).z = 1 ∧
      0 ≤ (cosine_hemisphere ((0 : ℝ), (0 : ℝ))).y ∧
      cosine_hemisphere_pdf (cosine_hemisphere (0, 0)) =
        Real.sqrt (1 - 0) / PI :=
  claim_C10 0 0 (by norm_num) (by norm_num) (by norm_num) (by norm_num)

/-- Round trip through any orthonormal frame is the identity. -/
theorem frame_to_local_to_world (f : Frame)
    (h1 : Vec3.dot f.tangent f.tangent = 1)
    (h4 : Vec3.dot f.tangent f.normal = 0)
    (h5 : Vec3.dot f.tangent f.bitangent = 0)
    (h2 : Vec3.dot f.normal f.normal = 1)
    (h6 : Vec3.dot f.normal f.bitangent = 0)
    (h3 : Vec3.dot f.bitangent f.bitangent = 1)
    (w : Vec3 ℝ) : f.to_local (f.to_world w) = w := by
  simp only [Vec3.dot, Vec3.sum, Vec3.mul_def, Frame.to_world, Frame.to_local,
    Vec3.add_def, Vec3.smul_right_def] at h1 h2 h3 h4 h5 h6 ⊢
  obtain ⟨wx, wy, wz⟩ := w
  refine Vec3.mk.injEq _ _ _ _ _ _ ▸ ⟨?_, ?_, ?_⟩
  · linear_combination wx * h1 + wy * h4 + wz * h5
  · linear_combination wx * h4 + wy * h2 + wz * h6
  · linear_combination wx * h5 + wy * h6 + wz * h3

/-- The six orthonormality equations of `Frame::from_up` on a unit normal. -/
theorem from_up_orthonormal (n : Vec3 ℝ) (hn : Vec3.dot n n = 1) :
    Vec3.dot (Frame.from_up n).tangent (Frame.from_up n).tangent = 1 ∧
      Vec3.dot (Frame.from_up n).tangent (Frame.from_up n).normal = 0 ∧
      Vec3.dot (Frame.from_up n).tangent (Frame.from_up n).bitangent = 0 ∧
      Vec3.dot (Frame.from_up n).normal (Frame.from_up n).normal = 1 ∧
      Vec3.dot (Frame.from_up n).normal (Frame.from_up n).bitangent = 0 ∧
      Vec3.dot (Frame.from_up n).bitangent (Frame.from_up n).bitangent = 1 := by
  obtain ⟨x, y, z⟩ := n
  simp only [Vec3.dot, Vec3.sum, Vec3.mul_def] at hn
  by_cases hxy : |x| > |y|
  · have hpos : 0 < x * x + z * z := by
      have hx : x ≠ 0 := by
        intro h0
        rw [h0, abs_zero] at hxy
        exact absurd (abs_nonneg y) (not_le.mpr hxy)
      nlinarith [mul_self_nonneg z, mul_self_pos.mpr hx]
    have hSq : Real.sqrt (x * x + z * z) * Real.sqrt (x * x + z * z)
        = x * x + z * z := Real.mul_self_sqrt hpos.le
    have hS0 : Real.sqrt (x * x + z * z) ≠ 0 :=
      ne_of_gt (Real.sqrt_pos.mpr hpos)
    have hSq2 : Real.sqrt (x ^ 2 + z ^ 2) * Real.sqrt (x ^ 2 + z ^ 2)
        = x ^ 2 + z ^ 2 := Real.mul_self_sqrt (by positivity)
    simp only [Frame.from_up, if_pos hxy, Vec3.div_scalar_def, Vec3.cross,
      Vec3.dot, Vec3.sum, Vec3.mul_def]
    refine ⟨?_, ?_, ?_, hn, ?_, ?_⟩
    · field_simp
      ring1
    · field_simp
      ring1
    · field_simp
      ring1
    · field_simp
      first
        | ring1
        | linear_combination (y * z ^ 2) * hSq2
        | linear_combination (y * x ^ 2) * hSq2
        | linear_combination (y * z ^ 2) * hSq
    · field_simp
      first
        | ring1
        | linear_combination (x ^ 2 + z ^ 2) * hn
  · have hxy2 : x * x ≤ y * y := by
      have h := mul_self_le_mul_self (abs_nonneg x) (le_of_not_lt hxy)
      rwa [abs_mul_abs_self, abs_mul_abs_self] at h
    have hpos : 0 < y * y + z * z := by
      nlinarith [mul_self_nonneg y, mul_self_nonneg z]
    have hSq : Real.sqrt (y * y + z * z) * Real.sqrt (y * y + z * z)
        = y * y + z * z := Real.mul_self_sqrt hpos.le
    have hS0 : Real.sqrt (y * y + z * z) ≠ 0 :=
      ne_of_gt (Real.sqrt_pos.mpr hpos)
    have hSq2 : Real.sqrt (y ^ 2 + z ^ 2) * Real.sqrt (y ^ 2 + z ^ 2)
        = y ^ 2 + z ^ 2 := Real.mul_self_sqrt (by positivity)
    simp only [Frame.from_up, if_neg hxy, Vec3.div_scalar_def, Vec3.cross,
      Vec3.dot, Vec3.sum, Vec3.mul_def]
    refine ⟨?_, ?_, ?_, hn, ?_, ?_⟩
    · field_simp
      ring1
    · field_simp
      ring1
    · field_simp
      ring1
    · field_simp
      first
        | ring1
        | linear_combination (x * z ^ 2) * hSq2
        | linear_combination (x * y ^ 2) * hSq2
        | linear_combination (x * y ^ 2 + x * z ^ 2) * hSq2
        | linear_combination (x * z ^ 2) * hSq
        | linear_combination (x * y ^ 2) * hSq
        | linear_combination (x * y ^ 2 + x * z ^ 2) * hSq
        | linear_combination x * hSq
    · field_simp
      first
        | ring1
        | linear_combination (y ^ 2 + z ^ 2) * hn

/-- C9: for every unit vector `n`, `Frame::from_up(n)` yields three pairwise
orthogonal unit vectors `(tangent, n, bitangent)`, and for every `v`,
`to_local (to_world v) = v` exactly (real arithmetic). -/
theorem claim_C9 (n : Vec3 ℝ) (hn : Vec3.dot n n = 1) :
    (Frame.from_up n).normal = n ∧
      Vec3.dot (Frame.from_up n).tangent (Frame.from_up n).tangent = 1 ∧
      Vec3.dot (Frame.from_up n).normal (Frame.from_up n).normal = 1 ∧
      Vec3.dot (Frame.from_up n).bitangent (Frame.from_up n).bitangent = 1 ∧
      Vec3.dot (Frame.from_up n).tangent (Frame.from_up n).normal = 0 ∧
      Vec3.dot (Frame.from_up n).tangent (Frame.from_up n).bitangent = 0 ∧
      Vec3.dot (Frame.from_up n).normal (Frame.from_up n).bitangent = 0 ∧
      ∀ v : Vec3 ℝ,
        (Frame.from_up n).to_local ((Frame.from_up n).to_world v) = v := by
  obtain ⟨h1, h4, h5, h2, h6, h3⟩ := from_up_orthonormal n hn
  exact ⟨rfl, h1, h2, h3, h4, h5, h6,
    fun v => frame_to_local_to_world _ h1 h4 h5 h2 h6 h3 v⟩

/-- Witness for C9 at `n = (1, 0, 0)` and round trip of `v = (5, 6, 7)`. -/
theorem claim_C9_witness :
    Vec3.dot (Frame.from_up (⟨1, 0, 0⟩ : Vec3 ℝ)).tangent
        (Frame.from_up (⟨1, 0, 0⟩ : Vec3 ℝ)).tangent = 1 ∧
      (Frame.from_up (⟨1, 0, 0⟩ : Vec3 ℝ)).to_local
          ((Frame.from_up (⟨1, 0, 0⟩ : Vec3 ℝ)).to_world ⟨5, 6, 7⟩) =
        ⟨5, 6, 7⟩ := by
  have h := claim_C9 (⟨1, 0, 0⟩ : Vec3 ℝ)
    (by simp [Vec3.dot, Vec3.sum, Vec3.mul_def])
  exact ⟨h.2.1, h.2.2.2.2.2.2.2 ⟨5, 6, 7⟩⟩

/-- C5. The claim asserts that every reflection-only model (explicitly
including Diffuse) returns zero from `eval`/`pdf` whenever
`-dir_in.y ≤ 0` or `dir_out.y ≤ 0`.  `Diffuse::eval` ignores `dir_in`: with
`dir_in = (0,1,0)` (so `-dir_in.y = -1 ≤ 0`) and `dir_out = (0,1,0)` it
returns `albedo/π ≠ 0`. -/
theorem claim_C5_counterexample :
    -(Vec3.mk (0 : ℝ) 1 0).y ≤ 0 ∧
      Diffuse.eval ⟨Texture.Constant ⟨1, 1, 1⟩⟩ ⟨0, 1, 0⟩ ⟨0, 1, 0⟩ (0, 0) ≠
        Vec3.zero := by
  refine ⟨by norm_num, ?_⟩
  intro h
  have hx := congrArg Vec3.x h
  simp only [Diffuse.eval, Texture.eval, cos_theta, Vec3.smul_right_def,
    Vec3.zero, INV_PI, PI] at hx
  rw [max_eq_left (by norm_num)] at hx
  have hpi := Real.pi_pos
  rw [one_mul] at hx
  have : (1 : ℝ) / Real.pi > 0 := by positivity
  linarith [this, hx.le, hx.ge]

/-- C5 (amended): the hemisphere guards as actually implemented.
`Plastic` and `RoughPlastic` return zero from `eval` and `pdf` whenever
`-dir_in.y ≤ 0` OR `dir_out.y ≤ 0`; `Diffuse`'s `eval`/`pdf` depend only on
`dir_out` and return zero whenever `dir_out.y ≤ 0` (but not for a wrong-side
`dir_in`); `RoughConductor` uses an `&&` guard and returns zero (via that
guard) when BOTH `-dir_in.y ≤ 0` and `dir_out.y ≤ 0`. -/
theorem claim_C5 :
    (∀ (m : Plastic) (din dout : Vec3 ℝ) (uv : ℝ × ℝ),
        -din.y ≤ 0 ∨ dout.y ≤ 0 →
          m.eval din dout uv = Vec3.zero ∧ m.pdf din dout uv = 0) ∧
      (∀ (m : RoughPlastic) (din dout : Vec3 ℝ) (uv : ℝ × ℝ),
        -din.y ≤ 0 ∨ dout.y ≤ 0 →
          m.eval din dout uv = Vec3.zero ∧ m.pdf din dout uv = 0) ∧
      (∀ (m : Diffuse) (din dout : Vec3 ℝ) (uv : ℝ × ℝ),
        dout.y ≤ 0 →
          m.eval din dout uv = Vec3.zero ∧ m.pdf din dout uv = 0) ∧
      (∀ (m : RoughConductor) (din dout : Vec3 ℝ) (uv : ℝ × ℝ),
        -din.y ≤ 0 ∧ dout.y ≤ 0 →
          m.eval din dout uv = Vec3.zero ∧ m.pdf din dout uv = 0) := by
  refine ⟨?_, ?_, ?_, ?_⟩
  · intro m din dout uv h
    constructor
    · rw [Plastic.eval, if_pos]
      simpa [cos_theta] using h
    · rw [Plastic.pdf, if_pos]
      simpa [cos_theta] using h
  · intro m din dout uv h
    constructor
    · rw [RoughPlastic.eval, if_pos]
      simpa [cos_theta] using h
    · rw [RoughPlastic.pdf, if_pos]
      simpa [cos_theta] using h
  · intro m din dout uv h
    have hmax : max (cos_theta dout) 0 = 0 := max_eq_right h
    constructor
    · rw [Diffuse.eval, hmax]
      simp [Vec3.zero]
    · rw [Diffuse.pdf, hmax]
      simp
  · intro m din dout uv h
    constructor
    · rw [RoughConductor.eval, if_pos]
      simpa [cos_theta] using h
    · rw [RoughConductor.pdf, if_pos]
      simpa [cos_theta] using h

/-- Witness for C5: concrete instances of each of the four guards. -/
theorem claim_C5_witness :
    Plastic.eval ⟨Texture.Constant ⟨1, 1, 1⟩, 3 / 2⟩ ⟨0, 1, 0⟩ ⟨0, 1, 0⟩ (0, 0)
        = Vec3.zero ∧
      Diffuse.pdf ⟨Texture.Constant ⟨1, 1, 1⟩⟩ ⟨0, -1, 0⟩ ⟨0, -1, 0⟩ (0, 0)
        = 0 ∧
      RoughConductor.pdf
        ⟨Texture.Constant ⟨1, 1, 1⟩, ⟨⟨1, 1, 1⟩, ⟨1, 1, 1⟩⟩,
          Texture.Constant ⟨1, 1, 1⟩⟩ ⟨0, 1, 0⟩ ⟨0, -1, 0⟩ (0, 0) = 0 := by
  refine ⟨?_, ?_, ?_⟩
  · exact (claim_C5.1 _ _ _ _ (Or.inl (by norm_num))).1
  · exact (claim_C5.2.2.1 _ _ _ _ (by norm_num)).2
  · exact (claim_C5.2.2.2 _ _ _ _ ⟨by norm_num, by norm_num⟩).2

theorem scanSums_length (acc : ℚ) (l : List ℚ) :
    (scanSums acc l).length = l.length := by
  induction l generalizing acc with
  | nil => rfl
  | cons a rest ih => simp [scanSums, ih]

theorem scanSums_getLast? (acc : ℚ) (l : List ℚ) (h : l ≠ []) :
    (scanSums acc l).getLast? = some (acc + l.sum) := by
  induction l generalizing acc with
  | nil => exact absurd rfl h
  | cons a rest ih =>
    cases rest with
    | nil => simp [scanSums]
    | cons b t =>
      rw [scanSums]
      rw [show scanSums (acc + a) (b :: t) =
        (acc + a + b) :: scanSums (acc + a + b) t from rfl]
      rw [List.getLast?_cons_cons]
      rw [show (acc + a + b) :: scanSums (acc + a + b) t =
        scanSums (acc + a) (b :: t) from rfl]
      rw [ih (acc + a) (by simp)]
      simp [List.sum_cons]
      ring

theorem scanSums_chain' (acc : ℚ) (l : List ℚ) (h : ∀ x ∈ l, 0 ≤ x) :
    (scanSums acc l).Chain' (· ≤ ·) := by
  induction l generalizing acc with
  | nil => simp [scanSums]
  | cons a rest ih =>
    rw [scanSums, List.chain'_cons']
    refine ⟨?_, ih (acc + a) fun x hx => h x (List.mem_cons_of_mem _ hx)⟩
    intro y hy
    cases rest with
    | nil => simp [scanSums] at hy
    | cons b t =>
      rw [show scanSums (acc + a) (b :: t) =
        (acc + a + b) :: scanSums (acc + a + b) t from rfl] at hy
      simp only [List.head?_cons, Option.mem_def, Option.some.injEq] at hy
      have hb : 0 ≤ b := h b (by simp)
      linarith [hy]

theorem list_all_zero_of_sum_zero (l : List ℚ) (h : ∀ x ∈ l, 0 ≤ x)
    (hs : l.sum = 0) : ∀ x ∈ l, x = 0 := by
  induction l with
  | nil => intro x hx; simp at hx
  | cons a rest ih =>
    have ha : 0 ≤ a := h a (by simp)
    have hrest : 0 ≤ rest.sum :=
      List.sum_nonneg fun x hx => h x (List.mem_cons_of_mem _ hx)
    rw [List.sum_cons] at hs
    have ha0 : a = 0 := by linarith
    have hs0 : rest.sum = 0 := by linarith
    intro x hx
    rcases List.mem_cons.mp hx with hx | hx
    · exact hx.trans ha0
    · exact ih (fun y hy => h y (List.mem_cons_of_mem _ hy)) hs0 x hx

theorem sum_map_div (l : List ℚ) (t : ℚ) :
    (l.map fun v => v / t).sum = l.sum / t := by
  induction l with
  | nil => simp
  | cons a rest ih => simp [ih, add_div]

/-- Full contract of `make1d` on a non-empty list of non-negative weights:
the returned total is the weight sum when positive and `0.0` otherwise; on a
positive total the pdf sums to 1 and the cdf is non-decreasing with last
entry 1; on a zero total the pdf is left untouched (and is all zeros). -/
theorem make1d_spec (w : List ℚ) (hne : w ≠ []) (hnn : ∀ x ∈ w, 0 ≤ x) :
    ∃ p c, make1d w = some (p, c, if 0 < w.sum then w.sum else 0) ∧
      p.length = w.length ∧ c.length = w.length ∧
      (0 < w.sum → p.sum = 1 ∧ List.Chain' (· ≤ ·) c ∧ c.getLast? = some 1) ∧
      (w.sum = 0 → p = w ∧ ∀ x ∈ p, x = 0) := by
  obtain ⟨p0, rest, rfl⟩ : ∃ p0 rest, w = p0 :: rest := by
    cases w with
    | nil => exact absurd rfl hne
    | cons a t => exact ⟨a, t, rfl⟩
  have hlast : (scanSums 0 (p0 :: rest)).getLast? = some ((p0 :: rest).sum) := by
    rw [scanSums_getLast? 0 _ (by simp)]
    rw [zero_add]
  have hsum0 : 0 ≤ (p0 :: rest).sum := List.sum_nonneg hnn
  rw [make1d]
  simp only [hlast, Option.getD_some]
  by_cases hpos : 0 < (p0 :: rest).sum
  · rw [if_neg (not_le.mpr hpos), if_pos hpos]
    have hts : (p0 :: rest).sum ≠ 0 := ne_of_gt hpos
    refine ⟨_, _, rfl, by rw [List.length_map],
      by rw [List.length_map, scanSums_length], fun _ => ⟨?_, ?_, ?_⟩,
      fun h0 => absurd h0 (by linarith)⟩
    · rw [sum_map_div, div_self hts]
    · refine List.chain'_map_of_chain' _ (fun a b hab => ?_)
        (scanSums_chain' 0 _ hnn)
      exact (div_le_div_iff_of_pos_right hpos).mpr hab
    · rw [List.getLast?_map, hlast, Option.map_some', div_self hts]
  · have hz : (p0 :: rest).sum = 0 := le_antisymm (not_lt.mp hpos) hsum0
    rw [if_pos (by linarith), if_neg hpos]
    exact ⟨_, _, rfl, rfl, scanSums_length 0 _, fun h => absurd h hpos,
      fun _ => ⟨rfl, list_all_zero_of_sum_zero _ hnn hz⟩⟩

/-- Any non-empty list makes it through `make1d`. -/
theorem make1d_isSome (w : List ℚ) (hne : w ≠ []) : (make1d w).isSome := by
  cases w with
  | nil => exact absurd rfl hne
  | cons a t =>
    rw [make1d]
    by_cases h : ((scanSums 0 (a :: t)).getLast?).getD 0 ≤ 0 <;> simp [h]

theorem mapM_option_eq {α β : Type} (f : α → Option β) (d : β) (l : List α)
    (h : ∀ a ∈ l, (f a).isSome) :
    l.mapM f = some (l.map fun a => (f a).getD d) := by
  induction l with
  | nil => rfl
  | cons a t ih =>
    have ha := h a (by simp)
    obtain ⟨b, hb⟩ := Option.isSome_iff_exists.mp ha
    rw [List.mapM_cons, hb, ih fun x hx => h x (List.mem_cons_of_mem _ hx)]
    simp [hb]

theorem chunks_length (w : ℕ) (hw : w ≠ 0) (height : ℕ) :
    ∀ l : List ℚ, l.length = w * height → (chunks w l).length = height := by
  induction height with
  | zero =>
    intro l hl
    have h0 : l = [] := List.length_eq_zero.mp (by omega)
    rw [chunks, dif_pos (Or.inr h0)]
    rfl
  | succ n ih =>
    intro l hl
    rw [Nat.mul_succ] at hl
    have hlne : l ≠ [] := by
      intro h0
      rw [h0] at hl
      simp at hl
      omega
    rw [chunks, dif_neg (by push_neg; exact ⟨hw, hlne⟩)]
    rw [List.length_cons,
      ih (l.drop w) (by rw [List.length_drop, hl]; omega)]

theorem chunks_row_length (w : ℕ) (hw : w ≠ 0) (height : ℕ) :
    ∀ l : List ℚ, l.length = w * height →
      ∀ r ∈ chunks w l, r.length = w := by
  induction height with
  | zero =>
    intro l hl r hr
    have h0 : l = [] := List.length_eq_zero.mp (by omega)
    rw [chunks, dif_pos (Or.inr h0)] at hr
    simp at hr
  | succ n ih =>
    intro l hl r hr
    rw [Nat.mul_succ] at hl
    have hlne : l ≠ [] := by
      intro h0
      rw [h0] at hl
      simp at hl
      omega
    rw [chunks, dif_neg (by push_neg; exact ⟨hw, hlne⟩)] at hr
    rcases List.mem_cons.mp hr with hr | hr
    · rw [hr, List.length_take, hl]
      omega
    · exact ih (l.drop w) (by rw [List.length_drop, hl]; omega) r hr

theorem chunks_flatten (w : ℕ) (hw : w ≠ 0) (height : ℕ) :
    ∀ l : List ℚ, l.length = w * height → (chunks w l).flatten = l := by
  induction height with
  | zero =>
    intro l hl
    have h0 : l = [] := List.length_eq_zero.mp (by omega)
    rw [chunks, dif_pos (Or.inr h0), h0]
    rfl
  | succ n ih =>
    intro l hl
    rw [Nat.mul_succ] at hl
    have hlne : l ≠ [] := by
      intro h0
      rw [h0] at hl
      simp at hl
      omega
    rw [chunks, dif_neg (by push_neg; exact ⟨hw, hlne⟩), List.flatten_cons,
      ih (l.drop w) (by rw [List.length_drop, hl]; omega),
      List.take_append_drop]

theorem chunks_getD (w : ℕ) (hw : w ≠ 0) :
    ∀ (i : ℕ) (l : List ℚ),
      (chunks w l).getD i [] = (l.drop (i * w)).take w := by
  intro i
  induction i with
  | zero =>
    intro l
    by_cases h : l = []
    · rw [chunks, dif_pos (Or.inr h), h]
      simp
    · rw [chunks, dif_neg (by push_neg; exact ⟨hw, h⟩)]
      simp
  | succ n ih =>
    intro l
    by_cases h : l = []
    · rw [chunks, dif_pos (Or.inr h), h]
      simp
    · rw [chunks, dif_neg (by push_neg; exact ⟨hw, h⟩)]
      rw [List.getD_cons_succ, ih (l.drop w), List.drop_drop]
      rw [show w + n * w = (n + 1) * w by ring]

/-- Slices of a flattened list of uniform-width rows recover the rows. -/
theorem flatten_slice (w : ℕ) :
    ∀ (L : List (List ℚ)) (i : ℕ), (∀ r ∈ L, r.length = w) →
      ((L.flatten.drop (i * w)).take w) = L.getD i [] := by
  intro L
  induction L with
  | nil => intro i _; simp
  | cons r rest ih =>
    intro i hlen
    cases i with
    | zero =>
      simp only [Nat.zero_mul, List.drop_zero, List.flatten_cons, List.getD]
      rw [List.take_append_of_le_length (by rw [hlen r (by simp)])]
      rw [List.take_of_length_le (by rw [hlen r (by simp)])]
      simp
    | succ n =>
      rw [List.flatten_cons, Nat.succ_mul, Nat.add_comm,
        ← hlen r (by simp), List.drop_append, hlen r (by simp)]
      rw [ih n fun s hs => hlen s (List.mem_cons_of_mem _ hs)]
      rfl

/-- Specification of `make1dD` on non-empty non-negative rows. -/
theorem make1dD_spec (r : List ℚ) (hne : r ≠ []) (hnn : ∀ x ∈ r, 0 ≤ x) :
    (make1dD r).2.2 = r.sum ∧
      (make1dD r).1.length = r.length ∧
      (make1dD r).2.1.length = r.length ∧
      (0 < r.sum → (make1dD r).1.sum = 1 ∧
        List.Chain' (· ≤ ·) (make1dD r).2.1 ∧
        (make1dD r).2.1.getLast? = some 1) ∧
      (r.sum = 0 → (make1dD r).1 = r ∧ ∀ x ∈ (make1dD r).1, x = 0) := by
  obtain ⟨p, c, hm, hlen, hclen, hp, hz⟩ := make1d_spec r hne hnn
  have hD : make1dD r = (p, c, if 0 < r.sum then r.sum else 0) := by
    rw [make1dD, hm, Option.getD_some]
  rw [hD]
  refine ⟨?_, hlen, hclen, hp, hz⟩
  by_cases h : 0 < r.sum
  · rw [if_pos h]
  · rw [if_neg h]
    have h0 : 0 ≤ r.sum := List.sum_nonneg hnn
    show (0 : ℚ) = r.sum
    exact le_antisymm h0 (not_lt.mp h)

/-- C8.  The claim quantifies over EVERY weight vector; `Distribution1D::new`
on the empty vector panics (`cdf[0]` out of bounds) instead of warning and
storing an all-zero pdf, modelled here by `none`. -/
theorem claim_C8_counterexample : Distribution1D.new ([] : List ℚ) = none := rfl

/-- C8 (amended): for every NON-EMPTY weight vector of non-negative entries,
each `make1d`-based constructor invocation — `Distribution1D::new`, each
width-sized row of `Distribution2D::new` and its marginal, each measured
against its own total — produces a pdf summing to 1 and a non-decreasing cdf
with last entry 1 when its total is positive, and leaves the stored pdf
untouched (hence all-zero) when its total is zero.  (The warning print is an
I/O effect outside the model.) -/
theorem claim_C8 :
    (∀ w : List ℚ, w ≠ [] → (∀ x ∈ w, 0 ≤ x) →
      ∃ d : Distribution1D, Distribution1D.new w = some d ∧
        d.pdf.length = w.length ∧
        (0 < w.sum → d.pdf.sum = 1 ∧ List.Chain' (· ≤ ·) d.cdf ∧
          d.cdf.getLast? = some 1) ∧
        (w.sum = 0 → d.pdf = w ∧ ∀ x ∈ d.pdf, x = 0)) ∧
    (∀ (ws : List ℚ) (width height : ℕ), width ≠ 0 → height ≠ 0 →
      ws.length = width * height → (∀ x ∈ ws, 0 ≤ x) →
      ∃ D : Distribution2D, Distribution2D.new ws width height = some D ∧
        (∀ i, i < height →
          (0 < ((ws.drop (i * width)).take width).sum →
            ((D.conditional_pdf.drop (i * width)).take width).sum = 1 ∧
            List.Chain' (· ≤ ·)
              ((D.conditional_cdf.drop (i * width)).take width) ∧
            ((D.conditional_cdf.drop (i * width)).take width).getLast? =
              some 1) ∧
          (((ws.drop (i * width)).take width).sum = 0 →
            (D.conditional_pdf.drop (i * width)).take width =
              (ws.drop (i * width)).take width ∧
            ∀ x ∈ (D.conditional_pdf.drop (i * width)).take width, x = 0)) ∧
        D.marginal_pdf.length = height ∧
        (0 < ws.sum → D.marginal_pdf.sum = 1 ∧
          List.Chain' (· ≤ ·) D.marginal_cdf ∧
          D.marginal_cdf.getLast? = some 1) ∧
        (ws.sum = 0 → ∀ x ∈ D.marginal_pdf, x = 0)) := by
  constructor
  · intro w hne hnn
    obtain ⟨p, c, hm, hlen, hclen, hp, hz⟩ := make1d_spec w hne hnn
    exact ⟨⟨p, c⟩, by rw [Distribution1D.new, hm]; rfl, hlen, hp, hz⟩
  · intro ws width height hw hh hlen hnn
    have hrows_len : (chunks width ws).length = height :=
      chunks_length width hw height ws hlen
    have hrow_len : ∀ r ∈ chunks width ws, r.length = width :=
      chunks_row_length width hw height ws hlen
    have hrow_ne : ∀ r ∈ chunks width ws, r ≠ [] := by
      intro r hr h0
      have hl := hrow_len r hr
      rw [h0] at hl
      exact hw hl.symm
    have hflat : (chunks width ws).flatten = ws :=
      chunks_flatten width hw height ws hlen
    have hrow_nn : ∀ r ∈ chunks width ws, ∀ x ∈ r, 0 ≤ x := by
      intro r hr x hx
      exact hnn x (by rw [← hflat]; exact List.mem_flatten.mpr ⟨r, hr, hx⟩)
    have hmapM : (chunks width ws).mapM make1d =
        some ((chunks width ws).map make1dD) :=
      mapM_option_eq make1d ([], [], 0) _ fun r hr =>
        make1d_isSome r (hrow_ne r hr)
    have hrspec := fun r hr =>
      make1dD_spec r (hrow_ne r hr) (hrow_nn r hr)
    have hmarg_w : (((chunks width ws).map make1dD).map fun r => r.2.2) =
        (chunks width ws).map List.sum := by
      rw [List.map_map]
      exact List.map_congr_left fun r hr => (hrspec r hr).1
    have hmw_len : ((chunks width ws).map List.sum).length = height := by
      rw [List.length_map, hrows_len]
    have hmw_ne : (chunks width ws).map List.sum ≠ [] := by
      intro h0
      rw [h0] at hmw_len
      exact hh hmw_len.symm
    have hmw_nn : ∀ x ∈ (chunks width ws).map List.sum, 0 ≤ x := by
      intro x hx
      obtain ⟨r, hr, rfl⟩ := List.mem_map.mp hx
      exact List.sum_nonneg (hrow_nn r hr)
    have hmw_sum : ((chunks width ws).map List.sum).sum = ws.sum := by
      rw [← List.sum_flatten, hflat]
    obtain ⟨mp, mc, hmm, hmlen, hmclen, hmpos, hmzero⟩ :=
      make1d_spec ((chunks width ws).map List.sum) hmw_ne hmw_nn
    have hnew : Distribution2D.new ws width height = some ⟨width, height,
        (((chunks width ws).map make1dD).map fun r => r.1).flatten,
        (((chunks width ws).map make1dD).map fun r => r.2.1).flatten,
        mp, mc⟩ := by
      rw [Distribution2D.new, if_neg hw, hmapM, Option.some_bind]
      simp only [hmarg_w, hmm, Option.some_bind]
    refine ⟨_, hnew, ?_, ?_, ?_, ?_⟩
    · intro i hi
      have h2 : i < (chunks width ws).length := by rw [hrows_len]; exact hi
      have hri : (chunks width ws)[i] = (ws.drop (i * width)).take width := by
        rw [← List.getD_eq_getElem _ ([] : List ℚ) h2, chunks_getD width hw i ws]
      have hmem : (ws.drop (i * width)).take width ∈ chunks width ws := by
        rw [← hri]
        exact List.getElem_mem h2
      have hpdf_len : ∀ s ∈ ((chunks width ws).map make1dD).map
          (fun r => r.1), s.length = width := by
        intro s hs
        obtain ⟨pc, hpc, rfl⟩ := List.mem_map.mp hs
        obtain ⟨r, hr, rfl⟩ := List.mem_map.mp hpc
        rw [(hrspec r hr).2.1, hrow_len r hr]
      have hcdf_len : ∀ s ∈ ((chunks width ws).map make1dD).map
          (fun r => r.2.1), s.length = width := by
        intro s hs
        obtain ⟨pc, hpc, rfl⟩ := List.mem_map.mp hs
        obtain ⟨r, hr, rfl⟩ := List.mem_map.mp hpc
        rw [(hrspec r hr).2.2.1, hrow_len r hr]
      have hip : i < (((chunks width ws).map make1dD).map
          (fun r => r.1)).length := by
        rw [List.length_map, List.length_map, hrows_len]
        exact hi
      have hic : i < (((chunks width ws).map make1dD).map
          (fun r => r.2.1)).length := by
        rw [List.length_map, List.length_map, hrows_len]
        exact hi
      have hpslice : (((((chunks width ws).map make1dD).map
          (fun r => r.1)).flatten.drop (i * width)).take width) =
          (make1dD ((ws.drop (i * width)).take width)).1 := by
        rw [flatten_slice width _ i hpdf_len,
          List.getD_eq_getElem _ ([] : List ℚ) hip, List.getElem_map,
          List.getElem_map, hri]
      have hcslice : (((((chunks width ws).map make1dD).map
          (fun r => r.2.1)).flatten.drop (i * width)).take width) =
          (make1dD ((ws.drop (i * width)).take width)).2.1 := by
        rw [flatten_slice width _ i hcdf_len,
          List.getD_eq_getElem _ ([] : List ℚ) hic, List.getElem_map,
          List.getElem_map, hri]
      have hsp := hrspec _ hmem
      constructor
      · intro hrowpos
        refine ⟨?_, ?_, ?_⟩
        · rw [show (⟨width, height, _, _, mp, mc⟩ :
            Distribution2D).conditional_pdf = _ from rfl, hpslice]
          exact (hsp.2.2.2.1 hrowpos).1
        · rw [show (⟨width, height, _, _, mp, mc⟩ :
            Distribution2D).conditional_cdf = _ from rfl, hcslice]
          exact (hsp.2.2.2.1 hrowpos).2.1
        · rw [show (⟨width, height, _, _, mp, mc⟩ :
            Distribution2D).conditional_cdf = _ from rfl, hcslice]
          exact (hsp.2.2.2.1 hrowpos).2.2
      · intro hrowzero
        constructor
        · rw [show (⟨width, height, _, _, mp, mc⟩ :
            Distribution2D).conditional_pdf = _ from rfl, hpslice]
          exact (hsp.2.2.2.2 hrowzero).1
        · rw [show (⟨width, height, _, _, mp, mc⟩ :
            Distribution2D).conditional_pdf = _ from rfl, hpslice]
          exact (hsp.2.2.2.2 hrowzero).2
    · rw [show (⟨width, height, _, _, mp, mc⟩ :
        Distribution2D).marginal_pdf = mp from rfl, hmlen, hmw_len]
    · intro hspos
      rw [show (⟨width, height, _, _, mp, mc⟩ :
        Distribution2D).marginal_pdf = mp from rfl,
        show (⟨width, height, _, _, mp, mc⟩ :
        Distribution2D).marginal_cdf = mc from rfl]
      exact hmpos (by rw [hmw_sum]; exact hspos)
    · intro hszero
      rw [show (⟨width, height, _, _, mp, mc⟩ :
        Distribution2D).marginal_pdf = mp from rfl]
      exact (hmzero (by rw [hmw_sum]; exact hszero)).2

/-- Witness for C8 on the concrete weights `[2, 6]` (1D) and the 2×2 grid
`[1, 0, 0, 3]` (2D, containing one all-zero row). -/
theorem claim_C8_witness :
    (∃ d : Distribution1D, Distribution1D.new [2, 6] = some d ∧
      d.pdf.length = ([2, 6] : List ℚ).length ∧
      (0 < ([2, 6] : List ℚ).sum → d.pdf.sum = 1 ∧
        List.Chain' (· ≤ ·) d.cdf ∧ d.cdf.getLast? = some 1) ∧
      (([2, 6] : List ℚ).sum = 0 → d.pdf = [2, 6] ∧ ∀ x ∈ d.pdf, x = 0)) ∧
    (∃ D : Distribution2D, Distribution2D.new [1, 0, 0, 3] 2 2 = some D ∧
      D.marginal_pdf.length = 2 ∧
      (0 < ([1, 0, 0, 3] : List ℚ).sum → D.marginal_pdf.sum = 1 ∧
        List.Chain' (· ≤ ·) D.marginal_cdf ∧
        D.marginal_cdf.getLast? = some 1)) := by
  constructor
  · exact claim_C8.1 [2, 6] (by simp) (by norm_num)
  · obtain ⟨D, hD, _, hlen, hpos, _⟩ := claim_C8.2 [1, 0, 0, 3] 2 2
      (by norm_num) (by norm_num) (by norm_num) (by norm_num)
    exact ⟨D, hD, hlen, hpos⟩

/-- The loop executes at most `66 - nb_bounces` iterations from bounce
counter `nb_bounces ≤ 65`. -/
theorem estimate_radiance_loop_count (scene : Scene) (R : ℕ → ℝ) :
    ∀ (m nb : ℕ) (s : PathState), 65 - nb ≤ m → nb ≤ 65 →
      (estimate_radiance_loop scene R nb s).2 ≤ 66 - nb := by
  intro m
  induction m with
  | zero =>
    intro nb s hm hnb
    have hnb65 : nb = 65 := by omega
    subst hnb65
    rw [estimate_radiance_loop]
    cases bounce_step scene R 65 s with
    | inr rad =>
      show (1 : ℕ) ≤ 66 - 65
      omega
    | inl s' =>
      show (if h : (65 : ℕ) ≤ 64 then _ else (s'.radiance, 1)).2 ≤ 66 - 65
      rw [dif_neg (by omega)]
  | succ m ih =>
    intro nb s hm hnb
    rw [estimate_radiance_loop]
    cases bounce_step scene R nb s with
    | inr rad =>
      show (1 : ℕ) ≤ 66 - nb
      omega
    | inl s' =>
      by_cases h64 : nb ≤ 64
      · show (if h : nb ≤ 64 then
            let r := estimate_radiance_loop scene R (nb + 1) s'
            (r.1, r.2 + 1)
          else (s'.radiance, 1)).2 ≤ 66 - nb
        rw [dif_pos h64]
        have hrec := ih (nb + 1) s' (by omega) (by omega)
        show (estimate_radiance_loop scene R (nb + 1) s').2 + 1 ≤ 66 - nb
        omega
      · show (if h : nb ≤ 64 then
            let r := estimate_radiance_loop scene R (nb + 1) s'
            (r.1, r.2 + 1)
          else (s'.radiance, 1)).2 ≤ 66 - nb
        rw [dif_neg h64]
        show (1 : ℕ) ≤ 66 - nb
        omega

/-- C4: `estimate_radiance` terminates for every scene, camera ray and
random stream (the loop is a total function) and the bounce loop executes at
most 66 iterations — any path that does not otherwise terminate breaks as
soon as the bounce counter exceeds 64. -/
theorem claim_C4 (scene : Scene) (ray : Ray ℝ) (R : ℕ → ℝ) :
    (estimate_radiance_loop scene R 0
        ⟨0, Vec3.thrice 1, Vec3.zero, ray, true, 1⟩).2 ≤ 66 ∧
      estimate_radiance scene ray R =
        (estimate_radiance_loop scene R 0
          ⟨0, Vec3.thrice 1, Vec3.zero, ray, true, 1⟩).1 :=
  ⟨estimate_radiance_loop_count scene R 65 0 _ (by omega) (by omega), rfl⟩

/-- C3: at any bounce whose hit is a non-purely-specular scatterer, with at
least one light, a light successfully fetched at the sampled index (picked
with probability `light_pick_prob = 1/nb_lights`), and an unoccluded shadow
ray, the bounce adds to the radiance exactly
`path_weight * emission * bsdf_eval * mis_weight / (pdf_light * light_pick_prob)`
with `mis_weight = mis2 (pdf_light * light_pick_prob) (pdf_bsdf * cont_prob)`,
`cont_prob = min 1 (max_component path_weight)`, and `bsdf_eval`/`pdf_bsdf`
the material's `eval`/`pdf` at the local incident/outgoing directions. -/
theorem claim_C3 (scene : Scene) (R : ℕ → ℝ) (nb_bounces : ℕ) (s : PathState)
    (its : Intersection) (mat : Material) (light : Light)
    (emission : Vec3 ℝ) (ls : DirectSample)
    (h1 : scene.intersect s.ray = some (Hit.Scatterer its mat))
    (h2 : mat.is_purely_specular = false)
    (h3 : 0 < scene.nb_lights)
    (h4 : scene.get_light (⌊(scene.nb_lights : ℝ) * R s.k⌋).toNat = some light)
    (h5 : light.sample_direct (s.ray.point_at its.distance)
      (R (s.k + 1), R (s.k + 2)) = (emission, ls))
    (h6 : scene.occluded (s.ray.point_at its.distance) its.normal
      ls.dir ls.dist = false) :
    Sum.elim (fun s' : PathState => s'.radiance) (fun v => v)
        (bounce_step scene R nb_bounces s) =
      s.radiance + s.path_weight * emission *
          mat.eval ((Frame.from_up its.normal).to_local s.ray.direction)
            ((Frame.from_up its.normal).to_local ls.dir) its.uv *
          mis2 (ls.pdf * (1 / (scene.nb_lights : ℝ)))
            (mat.pdf ((Frame.from_up its.normal).to_local s.ray.direction)
                ((Frame.from_up its.normal).to_local ls.dir) its.uv *
              min 1 s.path_weight.max_elem) /
          (ls.pdf * (1 / (scene.nb_lights : ℝ))) := by
  have hmin : min (1 : ℝ) s.path_weight.max_elem =
      min s.path_weight.max_elem 1 := min_comm _ _
  rw [bounce_step, h1]
  simp only [h2, h3, and_true, h4, h5, h6]
  simp only [if_true, Sum.elim_inr]
  rw [hmin]
  simp only [Vec3.add_def, Vec3.mul_def, Vec3.smul_right_def,
    Vec3.div_scalar_def]
  split
  · simp only [Sum.elim_inr, Vec3.mk.injEq]
    exact ⟨by ring, by ring, by ring⟩
  · split
    · simp only [Sum.elim_inr, Vec3.mk.injEq]
      exact ⟨by ring, by ring, by ring⟩
    · split
      · simp only [Sum.elim_inr, Vec3.mk.injEq]
        exact ⟨by ring, by ring, by ring⟩
      · simp only [Sum.elim_inl, Vec3.mk.injEq]
        exact ⟨by ring, by ring, by ring⟩

/-- Witness for C3 on the concrete one-light scene. -/
theorem claim_C3_witness :
    Sum.elim (fun s' : PathState => s'.radiance) (fun v => v)
        (bounce_step sceneW (fun _ => 0) 0 stateW) =
      stateW.radiance + stateW.path_weight * (⟨1, 1, 1⟩ : Vec3 ℝ) *
          matW.eval
            ((Frame.from_up (⟨0, 1, 0⟩ : Vec3 ℝ)).to_local stateW.ray.direction)
            ((Frame.from_up (⟨0, 1, 0⟩ : Vec3 ℝ)).to_local
              (⟨0, 1, 0⟩ : Vec3 ℝ)) (0, 0) *
          mis2 (1 * (1 / (sceneW.nb_lights : ℝ)))
            (matW.pdf
                ((Frame.from_up (⟨0, 1, 0⟩ : Vec3 ℝ)).to_local
                  stateW.ray.direction)
                ((Frame.from_up (⟨0, 1, 0⟩ : Vec3 ℝ)).to_local
                  (⟨0, 1, 0⟩ : Vec3 ℝ)) (0, 0) *
              min 1 stateW.path_weight.max_elem) /
          (1 * (1 / (sceneW.nb_lights : ℝ))) :=
  claim_C3 sceneW (fun _ => 0) 0 stateW ⟨1, ⟨0, 1, 0⟩, (0, 0)⟩ matW lightW
    ⟨1, 1, 1⟩ ⟨⟨0, 1, 0⟩, 1, 1⟩ rfl rfl Nat.one_pos rfl rfl rfl

theorem memB_union_left (p : Vec3 ℚ) (a b : AABB) (h : memB p a) :
    memB p (a.union b) := by
  simp only [memB, AABB.union, Vec3.vmin, Vec3.vmax] at h ⊢
  exact ⟨le_trans (min_le_left _ _) h.1, le_trans h.2.1 (le_max_left _ _),
    le_trans (min_le_left _ _) h.2.2.1, le_trans h.2.2.2.1 (le_max_left _ _),
    le_trans (min_le_left _ _) h.2.2.2.2.1,
    le_trans h.2.2.2.2.2 (le_max_left _ _)⟩

theorem memB_union_right (p : Vec3 ℚ) (a b : AABB) (h : memB p b) :
    memB p (a.union b) := by
  simp only [memB, AABB.union, Vec3.vmin, Vec3.vmax] at h ⊢
  exact ⟨le_trans (min_le_right _ _) h.1, le_trans h.2.1 (le_max_right _ _),
    le_trans (min_le_right _ _) h.2.2.1, le_trans h.2.2.2.1 (le_max_right _ _),
    le_trans (min_le_right _ _) h.2.2.2.2.1,
    le_trans h.2.2.2.2.2 (le_max_right _ _)⟩

theorem memB_unionO (p : Vec3 ℚ) (acc : Option AABB) (b : AABB)
    (h : memB p b) : memB p (unionO acc b) := by
  cases acc with
  | none => exact h
  | some a => exact memB_union_right p a b h

theorem memB_unionO_acc (p : Vec3 ℚ) (a b : AABB) (h : memB p a) :
    memB p (unionO (some a) b) :=
  memB_union_left p a b h

theorem foldl_unionO_contains (l : List AABB) :
    ∀ (acc : Option AABB) (p : Vec3 ℚ),
      ((∃ a, acc = some a ∧ memB p a) ∨ ∃ b ∈ l, memB p b) →
      ∀ U, l.foldl (fun acc b => some (unionO acc b)) acc = some U →
        memB p U := by
  induction l with
  | nil =>
    intro acc p h U hU
    simp only [List.foldl_nil] at hU
    rcases h with ⟨a, ha, hm⟩ | ⟨b, hb, _⟩
    · rw [ha] at hU
      exact (Option.some.inj hU) ▸ hm
    · simp at hb
  | cons b rest ih =>
    intro acc p h U hU
    rw [List.foldl_cons] at hU
    refine ih (some (unionO acc b)) p ?_ U hU
    rcases h with ⟨a, ha, hm⟩ | ⟨b', hb', hm⟩
    · subst ha
      exact Or.inl ⟨_, rfl, memB_unionO_acc p a b hm⟩
    · rcases List.mem_cons.mp hb' with rfl | hmem
      · exact Or.inl ⟨_, rfl, memB_unionO p acc b' hm⟩
      · exact Or.inr ⟨b', hmem, hm⟩

theorem unionList_contains (l : List AABB) (b : AABB) (hb : b ∈ l)
    (p : Vec3 ℚ) (hp : memB p b) :
    ∀ U, unionList l = some U → memB p U :=
  foldl_unionO_contains l none p (Or.inr ⟨b, hb, hp⟩)

theorem union_comm (a b : AABB) : a.union b = b.union a := by
  simp only [AABB.union, Vec3.vmin, Vec3.vmax, AABB.mk.injEq, Vec3.mk.injEq]
  exact ⟨⟨min_comm _ _, min_comm _ _, min_comm _ _⟩,
    max_comm _ _, max_comm _ _, max_comm _ _⟩

theorem union_right_comm (x a b : AABB) :
    (x.union a).union b = (x.union b).union a := by
  have hmax : ∀ u v w : ℚ, max (max u v) w = max (max u w) v := fun u v w => by
    rw [max_assoc, max_comm v w, ← max_assoc]
  simp only [AABB.union, Vec3.vmin, Vec3.vmax, AABB.mk.injEq, Vec3.mk.injEq]
  exact ⟨⟨min_right_comm _ _ _, min_right_comm _ _ _, min_right_comm _ _ _⟩,
    hmax _ _ _, hmax _ _ _, hmax _ _ _⟩

theorem unionO_right_comm (acc : Option AABB) (a b : AABB) :
    unionO (some (unionO acc a)) b = unionO (some (unionO acc b)) a := by
  cases acc with
  | none => exact union_comm a b
  | some x => exact union_right_comm x a b

theorem unionList_perm (l l' : List AABB) (h : l.Perm l') :
    unionList l = unionList l' := by
  unfold unionList
  exact @List.Perm.foldl_eq _ _ (fun acc b => some (unionO acc b)) _ _
    ⟨fun acc a b => congrArg some (unionO_right_comm acc a b)⟩ h none

theorem selBest_char (cands : List (Axis × ℕ × ℚ)) :
    ∀ init : Option (Axis × ℕ) × ℚ,
      (selBest cands init = init ∧ ∀ c ∈ cands, init.2 ≤ c.2.2) ∨
      (∃ ax i cost, (ax, i, cost) ∈ cands ∧
        selBest cands init = (some (ax, i), cost) ∧ cost < init.2 ∧
        ∀ c ∈ cands, cost ≤ c.2.2) := by
  induction cands with
  | nil => intro init; exact Or.inl ⟨rfl, by simp⟩
  | cons c rest ih =>
    intro init
    by_cases hc : c.2.2 < init.2
    · have hsel : selBest (c :: rest) init =
          selBest rest (some (c.1, c.2.1), c.2.2) := by
        simp [selBest, hc]
      rcases ih (some (c.1, c.2.1), c.2.2) with ⟨heq, hall⟩ | ⟨ax, i, cost, hmem, heq, hlt, hall⟩
      · refine Or.inr ⟨c.1, c.2.1, c.2.2, by simp, by rw [hsel, heq], hc, ?_⟩
        intro d hd
        rcases List.mem_cons.mp hd with rfl | hd
        · exact le_refl _
        · exact hall d hd
      · refine Or.inr ⟨ax, i, cost, List.mem_cons_of_mem _ hmem,
          by rw [hsel, heq], lt_trans hlt hc, ?_⟩
        intro d hd
        rcases List.mem_cons.mp hd with rfl | hd
        · exact le_of_lt hlt
        · exact hall d hd
    · have hsel : selBest (c :: rest) init = selBest rest init := by
        simp [selBest, hc]
      rcases ih init with ⟨heq, hall⟩ | ⟨ax, i, cost, hmem, heq, hlt, hall⟩
      · refine Or.inl ⟨by rw [hsel, heq], ?_⟩
        intro d hd
        rcases List.mem_cons.mp hd with rfl | hd
        · exact not_lt.mp hc
        · exact hall d hd
      · refine Or.inr ⟨ax, i, cost, List.mem_cons_of_mem _ hmem,
          by rw [hsel, heq], hlt, ?_⟩
        intro d hd
        rcases List.mem_cons.mp hd with rfl | hd
        · exact le_of_lt (lt_of_lt_of_le hlt (not_lt.mp hc))
        · exact hall d hd

theorem axisCands_idx_bounds {I : Type} (ib : I → AABB) (axis : Axis)
    (s : List I) (tf : ℚ) (ax : Axis) (i : ℕ) (c : ℚ)
    (h : (ax, i, c) ∈ axisCands ib axis s tf) :
    ax = axis ∧ 1 ≤ i ∧ i ≤ s.length - 1 := by
  unfold axisCands at h
  simp only [List.mem_map, List.mem_reverse, List.mem_range'_1,
    Prod.mk.injEq] at h
  obtain ⟨j, ⟨hj1, hj2⟩, rfl, rfl, -⟩ := h
  exact ⟨rfl, hj1, by omega⟩

theorem length_sort_pc {I : Type} (pc : I → Axis → ℚ) (items : List I)
    (ax : Axis) :
    (sort_projected_centroid pc items ax).length = items.length := by
  simp [sort_projected_centroid, List.length_mergeSort]

theorem perm_sort_pc {I : Type} (pc : I → Axis → ℚ) (items : List I)
    (ax : Axis) : (sort_projected_centroid pc items ax).Perm items :=
  List.mergeSort_perm items _

theorem itemStep_inv {D : Type} (f : Ray ℚ → ℕ → ℚ × D) (ray : Ray ℚ)
    (seen : List ℕ) (acc : Option ℚ × ℕ × D)
    (h : ItemInv f ray seen acc) (i : ℕ) :
    ItemInv f ray (seen ++ [i]) (itemStep f ray acc i) := by
  obtain ⟨a1, ai, ad⟩ := acc
  rcases h with ⟨hnone, hneg⟩ | ⟨tmin, hsome, htpos, j, hj, hfj, hidx, hdat, hmin⟩
  · rcases hnone
    by_cases hpos : 0 < (f ray i).1
    · refine Or.inr ⟨(f ray i).1, ?_, hpos, i, by simp, rfl, ?_, ?_, ?_⟩
      · simp [itemStep, hpos]
      · simp [itemStep, hpos]
      · simp [itemStep, hpos]
      · intro j hj hjpos
        rcases List.mem_append.mp hj with hj | hj
        · exact absurd hjpos (not_lt.mpr (hneg j hj))
        · rw [List.mem_singleton.mp hj]
    · refine Or.inl ⟨by simp [itemStep, hpos], ?_⟩
      intro j hj
      rcases List.mem_append.mp hj with hj | hj
      · exact hneg j hj
      · rw [List.mem_singleton.mp hj]; exact not_lt.mp hpos
  · rcases hsome
    by_cases hpos : 0 < (f ray i).1 ∧ (f ray i).1 < tmin
    · refine Or.inr ⟨(f ray i).1, by simp [itemStep, hpos], hpos.1, i,
        by simp, rfl, by simp [itemStep, hpos], by simp [itemStep, hpos], ?_⟩
      intro k hk hkpos
      rcases List.mem_append.mp hk with hk | hk
      · exact le_trans (le_of_lt hpos.2) (hmin k hk hkpos)
      · rw [List.mem_singleton.mp hk]
    · refine Or.inr ⟨tmin, by simp [itemStep, hpos], htpos, j,
        List.mem_append_left _ hj, hfj, ?_, ?_, ?_⟩
      · simpa [itemStep, hpos] using hidx
      · simpa [itemStep, hpos] using hdat
      · intro k hk hkpos
        rcases List.mem_append.mp hk with hk | hk
        · exact hmin k hk hkpos
        · rw [List.mem_singleton.mp hk] at hkpos ⊢
          rcases not_and_or.mp hpos with h | h
          · exact absurd hkpos h
          · exact not_lt.mp h

theorem foldl_itemStep_inv {D : Type} (f : Ray ℚ → ℕ → ℚ × D)
    (ray : Ray ℚ) :
    ∀ (L seen : List ℕ) (acc : Option ℚ × ℕ × D),
      ItemInv f ray seen acc →
      ItemInv f ray (seen ++ L) (L.foldl (itemStep f ray) acc) := by
  intro L
  induction L with
  | nil => intro seen acc h; simpa using h
  | cons i rest ih =>
    intro seen acc h
    rw [List.foldl_cons]
    have := ih (seen ++ [i]) (itemStep f ray acc i)
      (itemStep_inv f ray seen acc h i)
    simpa [List.append_assoc] using this

theorem intersect_items_spec {D : Type} [Inhabited D]
    (f : Ray ℚ → ℕ → ℚ × D) (ray : Ray ℚ) (bg en : ℕ) (dmax : WithTop ℚ) :
    Contract f ray (List.range' bg (en - bg)) dmax
      (intersect_items f ray bg en) := by
  have h := foldl_itemStep_inv f ray (List.range' bg (en - bg)) []
    ((none : Option ℚ), 0, (default : D)) (Or.inl ⟨rfl, by simp⟩)
  simp only [List.nil_append] at h
  unfold intersect_items
  obtain ⟨⟨a1, ai, ad⟩, hr⟩ : ∃ p, (List.range' bg (en - bg)).foldl
      (itemStep f ray) ((none : Option ℚ), 0, (default : D)) = p := ⟨_, rfl⟩
  rw [hr] at h ⊢
  cases a1 with
  | none =>
    refine Or.inl ⟨rfl, ?_⟩
    intro i hi hipos
    rcases h with ⟨_, hneg⟩ | ⟨tmin, hsome, _⟩
    · exact absurd hipos (not_lt.mpr (hneg i hi))
    · exact absurd hsome (by simp)
  | some tmin =>
    rcases h with ⟨hnone, _⟩ | ⟨tmin2, hsome, htpos, i, hi, hfi, hidx, hdat, hmin⟩
    · exact absurd hnone (by simp)
    · rcases Option.some.inj hsome
      exact Or.inr ⟨htpos, i, hi, hfi, hidx, hdat,
        fun j hj hjpos => Or.inl (hmin j hj hjpos)⟩

theorem mul_one_div_le_of_le (a b d : ℚ) (hd : 0 < d) (h : a ≤ b * d) :
    a * (1 / d) ≤ b := by
  have h2 := mul_le_mul_of_nonneg_right h (le_of_lt (one_div_pos.mpr hd))
  have h3 : d * (1 / d) = 1 := by field_simp
  rwa [mul_assoc, h3, mul_one] at h2

theorem le_mul_one_div_of_le (a b d : ℚ) (hd : 0 < d) (h : b * d ≤ a) :
    b ≤ a * (1 / d) := by
  have h2 := mul_le_mul_of_nonneg_right h (le_of_lt (one_div_pos.mpr hd))
  have h3 : d * (1 / d) = 1 := by field_simp
  rwa [mul_assoc, h3, mul_one] at h2

theorem mul_one_div_le_of_neg (a b d : ℚ) (hd : d < 0) (h : b * d ≤ a) :
    a * (1 / d) ≤ b := by
  have h2 := mul_le_mul_of_nonpos_right h (le_of_lt (one_div_neg.mpr hd))
  have h3 : d * (1 / d) = 1 := by rw [mul_one_div]; exact div_self (ne_of_lt hd)
  rwa [mul_assoc, h3, mul_one] at h2

theorem le_mul_one_div_of_neg (a b d : ℚ) (hd : d < 0) (h : a ≤ b * d) :
    b ≤ a * (1 / d) := by
  have h2 := mul_le_mul_of_nonpos_right h (le_of_lt (one_div_neg.mpr hd))
  have h3 : d * (1 / d) = 1 := by rw [mul_one_div]; exact div_self (ne_of_lt hd)
  rwa [mul_assoc, h3, mul_one] at h2

theorem slab_axis (o d lo hi t0 : ℚ) (hd : d ≠ 0)
    (h1 : lo ≤ o + d * t0) (h2 : o + d * t0 ≤ hi) :
    min ((lo - o) * (1 / d)) ((hi - o) * (1 / d)) ≤ t0 ∧
      t0 ≤ max ((lo - o) * (1 / d)) ((hi - o) * (1 / d)) := by
  rcases lt_or_gt_of_ne hd with hneg | hpos
  · constructor
    · exact le_trans (min_le_right _ _)
        (mul_one_div_le_of_neg _ _ _ hneg (by linarith))
    · exact le_trans (le_mul_one_div_of_neg _ _ _ hneg (by linarith))
        (le_max_left _ _)
  · constructor
    · exact le_trans (min_le_left _ _)
        (mul_one_div_le_of_le _ _ _ hpos (by linarith))
    · exact le_trans (le_mul_one_div_of_le _ _ _ hpos (by linarith))
        (le_max_right _ _)

theorem slab_bounds (b : AABB) (ray : Ray ℚ) (t0 : ℚ)
    (hd : ∀ a : Axis, ray.direction.get a ≠ 0)
    (hm : memB (ray.point_at t0) b) :
    (b.intersect_fast ray ((1 : ℚ) / ray.direction)).1 ≤ t0 ∧
      t0 ≤ (b.intersect_fast ray ((1 : ℚ) / ray.direction)).2 := by
  simp only [memB, Ray.point_at, Vec3.add_def, Vec3.smul_right_def] at hm
  obtain ⟨h1x, h2x, h1y, h2y, h1z, h2z⟩ := hm
  have hx := slab_axis ray.origin.x ray.direction.x b.lo.x b.hi.x t0
    (hd Axis.X) (by linarith) (by linarith)
  have hy := slab_axis ray.origin.y ray.direction.y b.lo.y b.hi.y t0
    (hd Axis.Y) (by linarith) (by linarith)
  have hz := slab_axis ray.origin.z ray.direction.z b.lo.z b.hi.z t0
    (hd Axis.Z) (by linarith) (by linarith)
  simp only [AABB.intersect_fast, Vec3.sub_def, Vec3.mul_def,
    Vec3.scalar_div_def, Vec3.vmin, Vec3.vmax, one_div]
  rw [if_neg (not_lt.mpr (le_trans
    (max_le (max_le (by simpa [one_div] using hx.1) (by simpa [one_div] using hy.1))
      (by simpa [one_div] using hz.1))
    (le_min (le_min (by simpa [one_div] using hx.2) (by simpa [one_div] using hy.2))
      (by simpa [one_div] using hz.2))))]
  exact ⟨max_le (max_le (by simpa [one_div] using hx.1)
      (by simpa [one_div] using hy.1)) (by simpa [one_div] using hz.1),
    le_min (le_min (by simpa [one_div] using hx.2)
      (by simpa [one_div] using hy.2)) (by simpa [one_div] using hz.2)⟩

theorem cull_sound (ray : Ray ℚ) (b : AABB) (dmax : WithTop ℚ)
    (hd : ∀ a : Axis, ray.direction.get a ≠ 0)
    (hcull : cullB ray ((1 : ℚ) / ray.direction) (some b) dmax = true)
    (t0 : ℚ) (ht0 : 0 < t0) (hm : memB (ray.point_at t0) b) :
    dmax ≤ ((t0 : ℚ) : WithTop ℚ) := by
  have hb := slab_bounds b ray t0 hd hm
  simp only [cullB, Bool.or_eq_true, Bool.and_eq_true, decide_eq_true_eq]
    at hcull
  rcases hcull with h | ⟨h1, h2⟩
  · exfalso; linarith [hb.2]
  · exact le_trans h2 (WithTop.coe_le_coe.mpr (le_trans hb.1 (le_refl t0)))

theorem Contract_perm {D : Type} (f : Ray ℚ → ℕ → ℚ × D) (ray : Ray ℚ)
    (L L' : List ℕ) (h : ∀ i, i ∈ L ↔ i ∈ L') (dmax : WithTop ℚ)
    (r : ℚ × ℕ × D) (hc : Contract f ray L dmax r) :
    Contract f ray L' dmax r := by
  rcases hc with ⟨hm, hall⟩ | ⟨hp, i, hi, hfi, hx, hdt, hmin⟩
  · exact Or.inl ⟨hm, fun i hi => hall i ((h i).mpr hi)⟩
  · exact Or.inr ⟨hp, i, (h i).mp hi, hfi, hx, hdt,
      fun j hj => hmin j ((h j).mpr hj)⟩

theorem Contract_combine {D : Type} (f : Ray ℚ → ℕ → ℚ × D) (ray : Ray ℚ)
    (L1 L2 : List ℕ) (dmax : WithTop ℚ) (r1 r2 r2b : ℚ × ℕ × D)
    (h1 : Contract f ray L1 dmax r1)
    (h2 : Contract f ray L2 dmax r2)
    (h2b : Contract f ray L2 ((r1.1 : ℚ) : WithTop ℚ) r2b) :
    Contract f ray (L1 ++ L2) dmax
      (if r1.1 < 0 then r2
       else if r2b.1 < 0 ∨ r1.1 < r2b.1 then r1 else r2b) := by
  by_cases hneg : r1.1 < 0
  · rw [if_pos hneg]
    rcases h1 with ⟨_, hall1⟩ | ⟨hp1, _⟩
    · rcases h2 with ⟨hm2, hall2⟩ | ⟨hp2, i, hi, hfi, hidx, hdat, hmin2⟩
      · exact Or.inl ⟨hm2, fun i hi hipos => (List.mem_append.mp hi).elim
          (fun h => hall1 i h hipos) (fun h => hall2 i h hipos)⟩
      · refine Or.inr ⟨hp2, i, List.mem_append_right _ hi, hfi, hidx, hdat, ?_⟩
        intro j hj hjpos
        rcases List.mem_append.mp hj with hj | hj
        · exact Or.inr (hall1 j hj hjpos)
        · exact hmin2 j hj hjpos
    · exact absurd hneg (not_lt.mpr (le_of_lt hp1))
  · rw [if_neg hneg]
    rcases h1 with ⟨hm1, _⟩ | ⟨hp1, i1, hi1, hf1, hx1, hd1, hmin1⟩
    · exact absurd (by rw [hm1]; norm_num : r1.1 < 0) hneg
    by_cases hc : r2b.1 < 0 ∨ r1.1 < r2b.1
    · rw [if_pos hc]
      refine Or.inr ⟨hp1, i1, List.mem_append_left _ hi1, hf1, hx1, hd1, ?_⟩
      intro j hj hjpos
      rcases List.mem_append.mp hj with hj | hj
      · exact hmin1 j hj hjpos
      · rcases h2b with ⟨_, hall2b⟩ | ⟨hp2b, i2, hi2, hf2, hx2, hd2, hmin2b⟩
        · exact Or.inl (WithTop.coe_le_coe.mp (hall2b j hj hjpos))
        · rcases hc with hc | hc
          · exact absurd hc (not_lt.mpr (le_of_lt hp2b))
          · rcases hmin2b j hj hjpos with h | h
            · exact Or.inl (le_trans (le_of_lt hc) h)
            · exact Or.inl (WithTop.coe_le_coe.mp h)
    · rw [if_neg hc]
      push_neg at hc
      rcases h2b with ⟨hm2b, _⟩ | ⟨hp2b, i2, hi2, hf2, hx2, hd2, hmin2b⟩
      · rw [hm2b] at hc; norm_num at hc
      · refine Or.inr ⟨hp2b, i2, List.mem_append_right _ hi2, hf2, hx2,
          hd2, ?_⟩
        intro j hj hjpos
        rcases List.mem_append.mp hj with hj | hj
        · rcases hmin1 j hj hjpos with h | h
          · exact Or.inl (le_trans hc.2 h)
          · exact Or.inr h
        · rcases hmin2b j hj hjpos with h | h
          · exact Or.inl h
          · exact Or.inl (le_trans hc.2 (WithTop.coe_le_coe.mp h))

theorem intersect_rec_spec {D : Type} [Inhabited D] (f : Ray ℚ → ℕ → ℚ × D)
    (ray : Ray ℚ) (boxOf : ℕ → AABB)
    (hd : ∀ a : Axis, ray.direction.get a ≠ 0) :
    ∀ t : BVH, wf boxOf t →
      (∀ i ∈ idxs t, 0 < (f ray i).1 →
        memB (ray.point_at (f ray i).1) (boxOf i)) →
      ∀ dmax : WithTop ℚ,
      Contract f ray (idxs t) dmax
        (intersect_rec f ray ((1 : ℚ) / ray.direction) t dmax) := by
  intro t
  induction t with
  | leaf bb bg en =>
    intro hwf hh dmax
    simp only [intersect_rec, idxs]
    by_cases hcull : cullB ray ((1 : ℚ) / ray.direction) bb dmax = true
    · rw [if_pos hcull]
      cases bb with
      | none => simp [cullB] at hcull
      | some b =>
        refine Or.inl ⟨rfl, ?_⟩
        intro i hi hipos
        exact cull_sound ray b dmax hd hcull (f ray i).1 hipos
          (hwf i hi _ (hh i hi hipos) b rfl)
    · rw [if_neg hcull]
      exact intersect_items_spec f ray bg en dmax
  | split bb ax c1 c2 ih1 ih2 =>
    intro hwf hh dmax
    obtain ⟨hcont, hwf1, hwf2⟩ := hwf
    have H1 := ih1 hwf1 (fun i hi => hh i (List.mem_append_left _ hi))
    have H2 := ih2 hwf2 (fun i hi => hh i (List.mem_append_right _ hi))
    simp only [intersect_rec, idxs]
    by_cases hcull : cullB ray ((1 : ℚ) / ray.direction) bb dmax = true
    · rw [if_pos hcull]
      cases bb with
      | none => simp [cullB] at hcull
      | some b =>
        refine Or.inl ⟨rfl, ?_⟩
        intro i hi hipos
        exact cull_sound ray b dmax hd hcull (f ray i).1 hipos
          (hcont i hi _ (hh i hi hipos) b rfl)
    · rw [if_neg hcull]
      by_cases hdir : ray.direction.get ax < 0
      · rw [if_pos hdir]
        refine Contract_perm f ray (idxs c2 ++ idxs c1) _
          (fun i => by simp [List.mem_append, or_comm]) dmax _ ?_
        exact Contract_combine f ray (idxs c2) (idxs c1) dmax
          (intersect_rec f ray ((1 : ℚ) / ray.direction) c2 dmax)
          (intersect_rec f ray ((1 : ℚ) / ray.direction) c1 dmax)
          (intersect_rec f ray ((1 : ℚ) / ray.direction) c1 _)
          (H2 dmax) (H1 dmax) (H1 _)
      · rw [if_neg hdir]
        exact Contract_combine f ray (idxs c1) (idxs c2) dmax
          (intersect_rec f ray ((1 : ℚ) / ray.direction) c1 dmax)
          (intersect_rec f ray ((1 : ℚ) / ray.direction) c2 dmax)
          (intersect_rec f ray ((1 : ℚ) / ray.direction) c2 _)
          (H1 dmax) (H2 dmax) (H2 _)

theorem perm_itemsSortedX {I : Type} (pc : I → Axis → ℚ) (items : List I) :
    (itemsSortedX pc items).Perm items :=
  perm_sort_pc pc items Axis.X

theorem perm_itemsSortedXY {I : Type} (pc : I → Axis → ℚ) (items : List I) :
    (itemsSortedXY pc items).Perm items :=
  (perm_sort_pc pc (itemsSortedX pc items) Axis.Y).trans
    (perm_itemsSortedX pc items)

theorem perm_itemsSortedXYZ {I : Type} (pc : I → Axis → ℚ) (items : List I) :
    (itemsSortedXYZ pc items).Perm items :=
  (perm_sort_pc pc (itemsSortedXY pc items) Axis.Z).trans
    (perm_itemsSortedXY pc items)

theorem length_itemsSortedX {I : Type} (pc : I → Axis → ℚ) (items : List I) :
    (itemsSortedX pc items).length = items.length :=
  (perm_itemsSortedX pc items).length_eq

theorem length_itemsSortedXY {I : Type} (pc : I → Axis → ℚ)
    (items : List I) : (itemsSortedXY pc items).length = items.length :=
  (perm_itemsSortedXY pc items).length_eq

theorem length_itemsSortedXYZ {I : Type} (pc : I → Axis → ℚ)
    (items : List I) : (itemsSortedXYZ pc items).length = items.length :=
  (perm_itemsSortedXYZ pc items).length_eq

theorem contains_of {I : Type} (ib : I → AABB) (out : List I) (bg : ℕ)
    (bb : Option AABB)
    (hbb : ∀ b', bb = some b' → unionList (out.map ib) = some b')
    (boxOf : ℕ → AABB)
    (hbox : ∀ j (h : j < out.length), boxOf (bg + j) = ib (out.get ⟨j, h⟩)) :
    ∀ i ∈ List.range' bg out.length, ∀ p, memB p (boxOf i) →
      ∀ b', bb = some b' → memB p b' := by
  intro i hi p hp b' hb'
  rw [List.mem_range'_1] at hi
  obtain ⟨h1, h2⟩ := hi
  have hj : i - bg < out.length := by omega
  have hieq : i = bg + (i - bg) := by omega
  rw [hieq, hbox (i - bg) hj] at hp
  exact unionList_contains (out.map ib) _
    (List.mem_map_of_mem ib (out.get_mem _ _)) p hp b' (hbb b' hb')

theorem leaf_wf {I : Type} (ib : I → AABB) (out : List I) (bg n : ℕ)
    (hn : out.length = n) (bb : Option AABB)
    (hbb : ∀ b', bb = some b' → unionList (out.map ib) = some b')
    (boxOf : ℕ → AABB)
    (hbox : ∀ j (h : j < out.length), boxOf (bg + j) = ib (out.get ⟨j, h⟩)) :
    wf boxOf (BVH.leaf bb bg (bg + n)) := by
  subst hn
  simp only [wf]
  intro i hi
  have h2 : bg + out.length - bg = out.length := by omega
  rw [h2] at hi
  exact contains_of ib out bg bb hbb boxOf hbox i hi

theorem build_best_bounds {I : Type} (pc : I → Axis → ℚ) (ib : I → AABB)
    (items : List I) (axis : Axis) (idx : ℕ)
    (hbest : (selBest (buildCands pc ib items)
      (none, INTERSECTION_COST * (items.length : ℚ))).1 = some (axis, idx)) :
    1 ≤ idx ∧ idx ≤ items.length - 1 := by
  rcases selBest_char (buildCands pc ib items)
      (none, INTERSECTION_COST * (items.length : ℚ)) with
    ⟨heq, _⟩ | ⟨ax, i, cost, hmem, heq, _, _⟩
  · rw [heq] at hbest
    simp at hbest
  · rw [heq] at hbest
    have hp := Option.some.inj hbest
    obtain ⟨rfl, rfl⟩ : ax = axis ∧ i = idx :=
      ⟨congrArg Prod.fst hp, congrArg Prod.snd hp⟩
    unfold buildCands at hmem
    rcases List.mem_append.mp hmem with hmem | hmem
    · rcases List.mem_append.mp hmem with hmem | hmem
      · have := axisCands_idx_bounds ib Axis.X _ _ _ _ _ hmem
        rw [length_itemsSortedX] at this
        exact ⟨this.2.1, this.2.2⟩
      · have := axisCands_idx_bounds ib Axis.Y _ _ _ _ _ hmem
        rw [length_itemsSortedXY] at this
        exact ⟨this.2.1, this.2.2⟩
    · have := axisCands_idx_bounds ib Axis.Z _ _ _ _ _ hmem
      rw [length_itemsSortedXYZ] at this
      exact ⟨this.2.1, this.2.2⟩

theorem build_rec_spec {I : Type} (pc : I → Axis → ℚ) (ib : I → AABB) :
    ∀ (fuel : ℕ) (items : List I) (bg : ℕ),
      (build_rec pc ib fuel items bg).2.Perm items ∧
      idxs (build_rec pc ib fuel items bg).1 =
        List.range' bg items.length ∧
      (build_rec pc ib fuel items bg).1.bbox = unionList (items.map ib) ∧
      ∀ boxOf : ℕ → AABB,
        (∀ j (h : j < (build_rec pc ib fuel items bg).2.length),
          boxOf (bg + j) =
            ib ((build_rec pc ib fuel items bg).2.get ⟨j, h⟩)) →
        wf boxOf (build_rec pc ib fuel items bg).1 := by
  intro fuel
  induction fuel with
  | zero =>
    intro items bg
    refine ⟨List.Perm.refl _, by simp [build_rec, idxs], ?_, ?_⟩
    · show rootBBox pc ib items = unionList (items.map ib)
      exact unionList_perm _ _ ((perm_itemsSortedX pc items).map ib)
    · intro boxOf hbox
      exact leaf_wf ib items bg items.length rfl (rootBBox pc ib items)
        (fun b' hb' => Eq.trans
          (unionList_perm _ _ (((perm_itemsSortedX pc items).symm).map ib))
          hb')
        boxOf hbox
  | succ fuel ih =>
    intro items bg
    rcases hbest : (selBest (buildCands pc ib items)
        (none, INTERSECTION_COST * (items.length : ℚ))).1 with _ | ⟨axis, idx⟩
    · have hredux : build_rec pc ib (fuel + 1) items bg =
          (BVH.leaf (rootBBox pc ib items) bg (bg + items.length),
            itemsSortedXYZ pc items) := by
        simp only [build_rec, hbest]
      rw [hredux]
      refine ⟨perm_itemsSortedXYZ pc items, by simp [idxs], ?_, ?_⟩
      · exact unionList_perm _ _ ((perm_itemsSortedX pc items).map ib)
      · intro boxOf hbox
        exact leaf_wf ib (itemsSortedXYZ pc items) bg items.length
          (length_itemsSortedXYZ pc items) (rootBBox pc ib items)
          (fun b' hb' => Eq.trans
            (unionList_perm _ _ (((perm_itemsSortedXYZ pc items).trans
              (perm_itemsSortedX pc items).symm).map ib))
            hb')
          boxOf hbox
    · have hredux : build_rec pc ib (fuel + 1) items bg =
          (BVH.split (rootBBox pc ib items) axis
            (build_rec pc ib fuel
              ((if axis ≠ Axis.Z then
                  sort_projected_centroid pc (itemsSortedXYZ pc items) axis
                else itemsSortedXYZ pc items).take idx) bg).1
            (build_rec pc ib fuel
              ((if axis ≠ Axis.Z then
                  sort_projected_centroid pc (itemsSortedXYZ pc items) axis
                else itemsSortedXYZ pc items).drop idx) (bg + idx)).1,
          (build_rec pc ib fuel
              ((if axis ≠ Axis.Z then
                  sort_projected_centroid pc (itemsSortedXYZ pc items) axis
                else itemsSortedXYZ pc items).take idx) bg).2 ++
            (build_rec pc ib fuel
              ((if axis ≠ Axis.Z then
                  sort_projected_centroid pc (itemsSortedXYZ pc items) axis
                else itemsSortedXYZ pc items).drop idx) (bg + idx)).2) := by
        simp only [build_rec, hbest]
      rw [hredux]
      set srt := if axis ≠ Axis.Z then
          sort_projected_centroid pc (itemsSortedXYZ pc items) axis
        else itemsSortedXYZ pc items with hsrt
      have hsl : srt.length = items.length := by
        rw [hsrt]
        split_ifs
        · rw [length_sort_pc, length_itemsSortedXYZ]
        · rw [length_itemsSortedXYZ]
      have hsp : srt.Perm items := by
        rw [hsrt]
        split_ifs
        · exact (perm_sort_pc _ _ _).trans (perm_itemsSortedXYZ pc items)
        · exact perm_itemsSortedXYZ pc items
      obtain ⟨hi1, hi2⟩ := build_best_bounds pc ib items axis idx hbest
      have hTlen : (srt.take idx).length = idx := by
        rw [List.length_take, hsl]
        omega
      have hDlen : (srt.drop idx).length = items.length - idx := by
        rw [List.length_drop, hsl]
      obtain ⟨P1, I1, B1, W1⟩ := ih (srt.take idx) bg
      obtain ⟨P2, I2, B2, W2⟩ := ih (srt.drop idx) (bg + idx)
      have hlen1 : (build_rec pc ib fuel (srt.take idx) bg).2.length = idx := by
        rw [P1.length_eq, hTlen]
      have hlen2 : (build_rec pc ib fuel (srt.drop idx) (bg + idx)).2.length =
          items.length - idx := by
        rw [P2.length_eq, hDlen]
      have hperm : ((build_rec pc ib fuel (srt.take idx) bg).2 ++
          (build_rec pc ib fuel (srt.drop idx) (bg + idx)).2).Perm items :=
        ((P1.append P2).trans
          (by rw [List.take_append_drop])).trans hsp
      have hI : idxs (build_rec pc ib fuel (srt.take idx) bg).1 ++
          idxs (build_rec pc ib fuel (srt.drop idx) (bg + idx)).1 =
          List.range' bg items.length := by
        rw [I1, I2, hTlen, hDlen]
        have hr := List.range'_append bg idx (items.length - idx) 1
        simp only [one_mul] at hr
        rw [show items.length - idx + idx = items.length from by omega] at hr
        exact hr
      refine ⟨hperm, hI, ?_, ?_⟩
      · show rootBBox pc ib items = unionList (items.map ib)
        exact unionList_perm _ _ ((perm_itemsSortedX pc items).map ib)
      · intro boxOf hbox
        refine ⟨?_, ?_, ?_⟩
        · intro i hi p hp b' hb'
          rw [hI] at hi
          have hol : ((build_rec pc ib fuel (srt.take idx) bg).2 ++
              (build_rec pc ib fuel (srt.drop idx) (bg + idx)).2).length =
              items.length := hperm.length_eq
          refine contains_of ib _ bg (rootBBox pc ib items)
            (fun b' hb' => Eq.trans
              (unionList_perm _ _ ((hperm.trans
                (perm_itemsSortedX pc items).symm).map ib))
              hb')
            boxOf hbox i ?_ p hp b' hb'
          rw [hol]
          exact hi
        · apply W1 boxOf
          intro j h
          have hj2 : j < ((build_rec pc ib fuel (srt.take idx) bg).2 ++
              (build_rec pc ib fuel (srt.drop idx) (bg + idx)).2).length := by
            rw [List.length_append]
            omega
          rw [hbox j hj2]
          congr 1
          rw [List.get_eq_getElem, List.get_eq_getElem]
          exact List.getElem_append_left h
        · apply W2 boxOf
          intro j h
          have hj2 : idx + j < ((build_rec pc ib fuel (srt.take idx) bg).2 ++
              (build_rec pc ib fuel (srt.drop idx) (bg + idx)).2).length := by
            rw [List.length_append, hlen1]
            omega
          rw [show bg + idx + j = bg + (idx + j) from by omega,
            hbox (idx + j) hj2]
          congr 1
          rw [List.get_eq_getElem, List.get_eq_getElem]
          have hge : (build_rec pc ib fuel (srt.take idx) bg).2.length ≤
              idx + j := by
            rw [hlen1]
            omega
          rw [List.getElem_append_right hge]
          simp [hlen1]

theorem count_range_interval (i a b : ℕ) :
    List.count i (List.range' a (b - a)) = if a ≤ i ∧ i < b then 1 else 0 := by
  by_cases h : a ≤ i ∧ i < b
  · rw [if_pos h]
    exact List.count_eq_one_of_mem (List.nodup_range' a (b - a))
      (List.mem_range'_1.mpr ⟨h.1, by omega⟩)
  · rw [if_neg h]
    rw [List.count_eq_zero]
    intro hmem
    rw [List.mem_range'_1] at hmem
    omega

theorem countP_ranges (L : List (ℕ × ℕ)) (i : ℕ) :
    List.count i (L.flatMap fun r => List.range' r.1 (r.2 - r.1)) =
      L.countP (fun r => decide (r.1 ≤ i ∧ i < r.2)) := by
  induction L with
  | nil => simp
  | cons r rest ih =>
    rw [List.flatMap_cons, List.count_append, ih, List.countP_cons,
      count_range_interval]
    by_cases h : r.1 ≤ i ∧ i < r.2
    · simp [h, Nat.add_comm]
    · simp [h]

theorem idxs_eq_flatMap (t : BVH) :
    idxs t = (leafRanges t).flatMap fun r => List.range' r.1 (r.2 - r.1) := by
  induction t with
  | leaf bb bg en => simp [idxs, leafRanges]
  | split bb ax c1 c2 ih1 ih2 => simp [idxs, leafRanges, ih1, ih2]

/-- C2: the leaves of the tree returned by `BVH::build` over `n` items carry
half-open ranges whose concatenation, left to right, is exactly `[0, n)` —
so the ranges are pairwise disjoint and cover `[0, n)` — and consequently
every item index below `n` lies in exactly one leaf range. -/
theorem claim_C2 {I : Type} (pc : I → Axis → ℚ) (ib : I → AABB)
    (items : List I) :
    ((leafRanges (BVH.build pc ib items).1).flatMap
        (fun r => List.range' r.1 (r.2 - r.1)) = List.range items.length) ∧
    ∀ i < items.length,
      (leafRanges (BVH.build pc ib items).1).countP
        (fun r => decide (r.1 ≤ i ∧ i < r.2)) = 1 := by
  have hidx := (build_rec_spec pc ib items.length items 0).2.1
  have hflat : (leafRanges (BVH.build pc ib items).1).flatMap
      (fun r => List.range' r.1 (r.2 - r.1)) = List.range items.length := by
    rw [← idxs_eq_flatMap]
    rw [List.range_eq_range']
    exact hidx
  refine ⟨hflat, ?_⟩
  intro i hi
  have hc := countP_ranges (leafRanges (BVH.build pc ib items).1) i
  rw [hflat] at hc
  rw [← hc]
  exact List.count_eq_one_of_mem (List.nodup_range _) (List.mem_range.mpr hi)

/-- C1: for the tree and reordered item list returned by `BVH::build`, if
the ray has no zero direction component and every strictly positive hit of
`f` lies inside the respective item's bounding box, then `BVH::intersect`
returns `t = -1` exactly when no index has a strictly positive hit, and
otherwise a strictly positive `t` equal to the minimum strictly positive
hit distance over `[0, n)`, together with a minimising index and its
data. -/
theorem claim_C1 {I D : Type} [Inhabited D] (pc : I → Axis → ℚ)
    (ib : I → AABB) (items : List I) (f : Ray ℚ → ℕ → ℚ × D) (ray : Ray ℚ)
    (hd : ∀ a : Axis, ray.direction.get a ≠ 0)
    (hhits : ∀ i (h : i < (BVH.build pc ib items).2.length),
      0 < (f ray i).1 → memB (ray.point_at (f ray i).1)
        (ib ((BVH.build pc ib items).2.get ⟨i, h⟩))) :
    (((BVH.build pc ib items).1.intersect f ray).1 = -1 ↔
      ∀ i < items.length, (f ray i).1 ≤ 0) ∧
    ((∃ i, i < items.length ∧ 0 < (f ray i).1) →
      0 < ((BVH.build pc ib items).1.intersect f ray).1 ∧
      ∃ i, i < items.length ∧
        (f ray i).1 = ((BVH.build pc ib items).1.intersect f ray).1 ∧
        ((BVH.build pc ib items).1.intersect f ray).2.1 = i ∧
        ((BVH.build pc ib items).1.intersect f ray).2.2 = (f ray i).2 ∧
        ∀ j < items.length, 0 < (f ray j).1 →
          ((BVH.build pc ib items).1.intersect f ray).1 ≤ (f ray j).1) := by
  obtain ⟨hperm, hidx, hbbox, hwf⟩ := build_rec_spec pc ib items.length items 0
  have hol : (BVH.build pc ib items).2.length = items.length := hperm.length_eq
  have hmem_iff : ∀ i, i ∈ idxs (BVH.build pc ib items).1 ↔ i < items.length := by
    intro i
    show i ∈ idxs (build_rec pc ib items.length items 0).1 ↔ _
    rw [hidx, List.mem_range'_1]
    omega
  have hbox : ∀ j (h : j < (BVH.build pc ib items).2.length),
      (fun i => ((BVH.build pc ib items).2.map ib).getD i
        (AABB.mk Vec3.zero Vec3.zero)) (0 + j) =
      ib ((BVH.build pc ib items).2.get ⟨j, h⟩) := by
    intro j h
    simp only [Nat.zero_add]
    rw [List.getD_eq_getElem _ _ (by simpa using h)]
    simp only [List.getElem_map]
    rw [List.get_eq_getElem]
  have hWF : wf (fun i => ((BVH.build pc ib items).2.map ib).getD i
      (AABB.mk Vec3.zero Vec3.zero)) (BVH.build pc ib items).1 :=
    hwf _ hbox
  have hh : ∀ i ∈ idxs (BVH.build pc ib items).1, 0 < (f ray i).1 →
      memB (ray.point_at (f ray i).1)
        (((BVH.build pc ib items).2.map ib).getD i
          (AABB.mk Vec3.zero Vec3.zero)) := by
    intro i hi hpos
    have hlt : i < (BVH.build pc ib items).2.length := by
      rw [hol]
      exact (hmem_iff i).mp hi
    have hbi := hbox i hlt
    simp only [Nat.zero_add] at hbi
    rw [hbi]
    exact hhits i hlt hpos
  have hC0 := intersect_rec_spec f ray _ hd (BVH.build pc ib items).1 hWF hh ⊤
  have hC : Contract f ray (idxs (BVH.build pc ib items).1) ⊤
      ((BVH.build pc ib items).1.intersect f ray) := hC0
  constructor
  · constructor
    · intro hr1 i hilt
      rcases hC with ⟨_, hall⟩ | ⟨hp, _⟩
      · by_contra hpos'
        exact WithTop.not_top_le_coe _
          (hall i ((hmem_iff i).mpr hilt) (not_le.mp hpos'))
      · rw [hr1] at hp
        norm_num at hp
    · intro hneg
      rcases hC with ⟨hm, _⟩ | ⟨hp, i, hi, hfi, _⟩
      · exact hm
      · exact absurd (hfi ▸ hp) (not_lt.mpr (hneg i ((hmem_iff i).mp hi)))
  · rintro ⟨i0, hi0, hpos0⟩
    rcases hC with ⟨_, hall⟩ | ⟨hp, i, hi, hfi, hx, hdt, hmin⟩
    · exact absurd (hall i0 ((hmem_iff i0).mpr hi0) hpos0)
        (WithTop.not_top_le_coe _)
    · refine ⟨hp, i, (hmem_iff i).mp hi, hfi, hx, hdt, ?_⟩
      intro j hj hjpos
      rcases hmin j ((hmem_iff j).mpr hj) hjpos with h | h
      · exact h
      · exact absurd h (WithTop.not_top_le_coe _)

/-- Witness for C1 on a concrete two-item build. -/
theorem claim_C1_witness :
    (((BVH.build pcW ibW [0, 1]).1.intersect fW rayW).1 = -1 ↔
      ∀ i < ([0, 1] : List ℕ).length, (fW rayW i).1 ≤ 0) ∧
    ((∃ i, i < ([0, 1] : List ℕ).length ∧ 0 < (fW rayW i).1) →
      0 < ((BVH.build pcW ibW [0, 1]).1.intersect fW rayW).1 ∧
      ∃ i, i < ([0, 1] : List ℕ).length ∧
        (fW rayW i).1 = ((BVH.build pcW ibW [0, 1]).1.intersect fW rayW).1 ∧
        ((BVH.build pcW ibW [0, 1]).1.intersect fW rayW).2.1 = i ∧
        ((BVH.build pcW ibW [0, 1]).1.intersect fW rayW).2.2 =
          (fW rayW i).2 ∧
        ∀ j < ([0, 1] : List ℕ).length, 0 < (fW rayW j).1 →
          ((BVH.build pcW ibW [0, 1]).1.intersect fW rayW).1 ≤
            (fW rayW j).1) :=
  claim_C1 pcW ibW [0, 1] fW rayW
    (fun a => by cases a <;> norm_num [rayW, Vec3.get])
    (fun i h hpos =>
      (by norm_num [memB, rayW, Ray.point_at] :
        memB (rayW.point_at ((1 : ℚ) / 2)) ⟨⟨-1, -1, -1⟩, ⟨1, 1, 1⟩⟩))

/-- C7: one step of `build_rec` emits a leaf exactly when no SAH candidate
(over the three axes' cumulative sorts and split indices `1..n-1`, with cost
`2·TRAVERSAL_COST + (INTERSECTION_COST / node_area) · (i·prefix[i-1] +
(n-i)·suffix)`) is strictly cheaper than the initial leaf cost
`INTERSECTION_COST · n`; otherwise it splits at an overall-cheapest
candidate's axis and index, recursing on the item ranges `[bg, bg+idx)` and
`[bg+idx, bg+n)`. -/
theorem claim_C7 {I : Type} (pc : I → Axis → ℚ) (ib : I → AABB)
    (fuel : ℕ) (items : List I) (bg : ℕ) :
    ((∃ bb b e, (build_rec pc ib (fuel + 1) items bg).1 = BVH.leaf bb b e) ↔
      ∀ c ∈ buildCands pc ib items,
        INTERSECTION_COST * (items.length : ℚ) ≤ c.2.2) ∧
    (∀ bb axis c1 c2,
      (build_rec pc ib (fuel + 1) items bg).1 = BVH.split bb axis c1 c2 →
      ∃ idx cost, (axis, idx, cost) ∈ buildCands pc ib items ∧
        cost < INTERSECTION_COST * (items.length : ℚ) ∧
        (∀ c ∈ buildCands pc ib items, cost ≤ c.2.2) ∧
        idxs c1 = List.range' bg idx ∧
        idxs c2 = List.range' (bg + idx) (items.length - idx) ∧
        1 ≤ idx ∧ idx ≤ items.length - 1) := by
  rcases hbest : (selBest (buildCands pc ib items)
      (none, INTERSECTION_COST * (items.length : ℚ))).1 with _ | ⟨axis0, idx0⟩
  · have hredux : build_rec pc ib (fuel + 1) items bg =
        (BVH.leaf (rootBBox pc ib items) bg (bg + items.length),
          itemsSortedXYZ pc items) := by
      simp only [build_rec, hbest]
    rw [hredux]
    constructor
    · constructor
      · intro _
        rcases selBest_char (buildCands pc ib items)
            (none, INTERSECTION_COST * (items.length : ℚ)) with
          ⟨heq, hall⟩ | ⟨ax, i, cost, hmem, heq, hlt, hall⟩
        · exact hall
        · rw [heq] at hbest
          simp at hbest
      · intro _
        exact ⟨_, _, _, rfl⟩
    · intro bb axis c1 c2 h
      simp at h
  · have hredux : build_rec pc ib (fuel + 1) items bg =
        (BVH.split (rootBBox pc ib items) axis0
          (build_rec pc ib fuel
            ((if axis0 ≠ Axis.Z then
                sort_projected_centroid pc (itemsSortedXYZ pc items) axis0
              else itemsSortedXYZ pc items).take idx0) bg).1
          (build_rec pc ib fuel
            ((if axis0 ≠ Axis.Z then
                sort_projected_centroid pc (itemsSortedXYZ pc items) axis0
              else itemsSortedXYZ pc items).drop idx0) (bg + idx0)).1,
        (build_rec pc ib fuel
            ((if axis0 ≠ Axis.Z then
                sort_projected_centroid pc (itemsSortedXYZ pc items) axis0
              else itemsSortedXYZ pc items).take idx0) bg).2 ++
          (build_rec pc ib fuel
            ((if axis0 ≠ Axis.Z then
                sort_projected_centroid pc (itemsSortedXYZ pc items) axis0
              else itemsSortedXYZ pc items).drop idx0) (bg + idx0)).2) := by
      simp only [build_rec, hbest]
    rw [hredux]
    set srt := if axis0 ≠ Axis.Z then
        sort_projected_centroid pc (itemsSortedXYZ pc items) axis0
      else itemsSortedXYZ pc items with hsrt
    obtain ⟨hb1, hb2⟩ := build_best_bounds pc ib items axis0 idx0 hbest
    have hsl : srt.length = items.length := by
      rw [hsrt]
      split_ifs
      · rw [length_sort_pc, length_itemsSortedXYZ]
      · rw [length_itemsSortedXYZ]
    have hTlen : (srt.take idx0).length = idx0 := by
      rw [List.length_take, hsl]
      omega
    have hDlen : (srt.drop idx0).length = items.length - idx0 := by
      rw [List.length_drop, hsl]
    obtain ⟨P1, I1, -, -⟩ := build_rec_spec pc ib fuel (srt.take idx0) bg
    obtain ⟨P2, I2, -, -⟩ := build_rec_spec pc ib fuel (srt.drop idx0)
      (bg + idx0)
    rcases selBest_char (buildCands pc ib items)
        (none, INTERSECTION_COST * (items.length : ℚ)) with
      ⟨heq, hall⟩ | ⟨ax, i, cost, hmem, heq, hlt, hall⟩
    · rw [heq] at hbest
      simp at hbest
    · rw [heq] at hbest
      have hp := Option.some.inj hbest
      obtain ⟨rfl, rfl⟩ : ax = axis0 ∧ i = idx0 :=
        ⟨congrArg Prod.fst hp, congrArg Prod.snd hp⟩
      constructor
      · constructor
        · rintro ⟨bb, b, e, h⟩
          simp at h
        · intro hge
          exact absurd (hge _ hmem) (not_le.mpr hlt)
      · intro bb axis c1 c2 h
        have h' : BVH.split (rootBBox pc ib items) ax
            (build_rec pc ib fuel (srt.take i) bg).1
            (build_rec pc ib fuel (srt.drop i) (bg + i)).1 =
            BVH.split bb axis c1 c2 := h
        rw [BVH.split.injEq] at h'
        obtain ⟨-, h2, h3, h4⟩ := h'
        refine ⟨i, cost, h2 ▸ hmem, hlt, hall, ?_, ?_, hb1, hb2⟩
        · rw [← h3, I1, hTlen]
        · rw [← h4, I2, hDlen]

end Tracing
